import Mathlib

/-!
Shallow embedding of `src/createCacheMethods.ts` from mongoose-plugin-cache.

Modelling conventions:
* A JavaScript value is `JsValue`; records (mongoose documents after
  `.toObject()`) are `JsValue.vObj` with an association list of fields.
  JS truthiness is `truthy`.
* The Redis cache maps string keys to stored strings.  The code observes a
  stored string only through (a) its truthiness (empty vs non-empty) and
  (b) `JSON.parse`, so a stored string is modelled by `CachedString`:
  `ser v` is the serialized form `JSON.stringify v` (parses back to `v`),
  `malformed t` is a non-empty string that is not valid JSON (parse throws),
  `empty` is the empty string.  Byte equality of payloads is equality of
  `CachedString` values (`JSON.stringify` is deterministic).
* The mongoose model is a list of plain documents (`Ctx.store`), in the
  order the backing store returns them; `model.find({f: {$in: keys}})` is
  `modelFind`.  `.toObject()` is the identity on these plain documents.
* Effects are made explicit: batched Redis commands become a `CacheOp`
  trace, observer callbacks become an `Event` list, and `JSON.parse`
  failures abort via `Except` (the exception propagates to the caller
  before any cache-miss event or store query happens, as in the source).
-/

/-- JavaScript runtime values, as far as `createCacheMethods` observes them. -/
inductive JsValue where
  | vUndefined : JsValue
  | vNull : JsValue
  | vBool (b : Bool) : JsValue
  | vNum (n : Int) : JsValue
  | vStr (s : String) : JsValue
  | vObj (fields : List (String × JsValue)) : JsValue

/-- JavaScript truthiness (`!!v`). -/
def truthy : JsValue → Bool
  | .vUndefined => false
  | .vNull => false
  | .vBool b => b
  | .vNum n => decide (n ≠ 0)
  | .vStr s => decide (s ≠ "")
  | .vObj _ => true

/-- JavaScript coercion of a value to an object property key
(`total[v] = ...` coerces `v` with `String(v)`). -/
def jsToPropKey : JsValue → String
  | .vUndefined => "undefined"
  | .vNull => "null"
  | .vBool b => if b then "true" else "false"
  | .vNum n => toString n
  | .vStr s => s
  | .vObj _ => "[object Object]"

/-- First-match association-list lookup (JS objects have unique keys). -/
def lookupKV {α : Type} : List (String × α) → String → Option α
  | [], _ => none
  | p :: t, k => if p.1 = k then some p.2 else lookupKV t k

/-- Property read `v[f]` on a record; absent fields read as `undefined`. -/
def getFieldJs (v : JsValue) (f : String) : JsValue :=
  match v with
  | .vObj fields => (lookupKV fields f).getD .vUndefined
  | _ => .vUndefined

/-- A plain JS object used as a string-keyed dictionary
(`cachedKeyValue`, `storedKeyValue`, `valueByKey` in the source). -/
abbrev JsMap := List (String × JsValue)

/-- Dictionary read `m[k]`: `undefined` when the key is absent. -/
def jsGet (m : JsMap) (k : String) : JsValue := (lookupKV m k).getD .vUndefined

/-- Dictionary assignment `m[k] = v`: overwrites in place (JS objects keep
the first-insertion position of a key), appends otherwise. -/
def jsSet (m : JsMap) (k : String) (v : JsValue) : JsMap :=
  if m.any (fun p => decide (p.1 = k)) then
    m.map (fun p => if p.1 = k then (k, v) else p)
  else m ++ [(k, v)]

/-- `lodash.keyby`: index a doc list by the (string-coerced) value of
`field` on each doc; the last doc generating a key wins. -/
def keyBy (docs : List JsValue) (field : String) : JsMap :=
  docs.foldl (fun m doc => jsSet m (jsToPropKey (getFieldJs doc field)) doc) []

/-- Object spread `{...a, ...b}`: every entry of `b` assigned over `a`. -/
def jsMerge (a b : JsMap) : JsMap := b.foldl (fun m kv => jsSet m kv.1 kv.2) a

/-- `responseKeyValue[key] || null`. -/
def jsOrNull (v : JsValue) : JsValue := if truthy v then v else .vNull

/-- A string held in Redis, at the granularity the code observes it. -/
inductive CachedString where
  | ser (v : JsValue) : CachedString
  | malformed (tag : Nat) : CachedString
  | empty : CachedString

/-- Truthiness of the stored string itself (`if (doc)`): only the empty
string is falsy. -/
def strTruthy : CachedString → Bool
  | .empty => false
  | _ => true

/-- `JSON.parse` on a stored string: succeeds exactly on valid
serializations, throws otherwise. -/
def parseJSON : CachedString → Except Unit JsValue
  | .ser v => .ok v
  | .malformed _ => .error ()
  | .empty => .error ()

/-- The Redis keyspace: key to stored string, `none` when absent. -/
abbrev Cache := String → Option CachedString

/-- One batched Redis round trip (`redis.multi(batch).execAsync()`). -/
inductive CacheOp where
  | getBatch (ks : List String) : CacheOp
  | setBatch (entries : List (String × CachedString)) : CacheOp
  | delBatch (ks : List String) : CacheOp

/-- Observer callback invocations. -/
inductive Event where
  | cacheMiss (model key : String) : Event
  | dataMiss (model key : String) : Event
deriving DecidableEq

/-- The plugin context: the fields of `createCacheMethods`' argument that
the claims depend on, plus the model's backing store contents. -/
structure Ctx where
  enable : Bool
  modelName : String
  additionalCacheKeys : List String
  store : List JsValue

/-- `name.toLowerCase()`: lowercase every character (structural form of
`String.toLower`, which maps `Char.toLower` over the characters). -/
def toLowerStr (s : String) : String := ⟨s.data.map Char.toLower⟩

/-- `withCachePrefix` (source line 25). -/
def withCachePrefix (ctx : Ctx) (key : String) : String :=
  toLowerStr ctx.modelName ++ ":" ++ key

/-- `queryKey === 'id' ? '_id' : queryKey` (source line 52). -/
def keyLookupOf (queryKey : String) : String :=
  if queryKey = "id" then "_id" else queryKey

/-- MongoDB `$in` match: the doc's field value equals one of the keys
(the keys are strings). -/
def fieldMatches : JsValue → String → Bool
  | .vStr s, k => decide (s = k)
  | _, _ => false

/-- `model.find({[keyLookup]: {$in: keys}})` (source lines 54-58): the
docs of the store whose looked-up field value is among `keys`, in store
order. -/
def modelFind (store : List JsValue) (queryKey : String) (keys : List String) : List JsValue :=
  store.filter (fun doc => keys.any (fun k => fieldMatches (getFieldJs doc (keyLookupOf queryKey)) k))

/-- `getManyBy` (source lines 48-72): one batched store lookup, results
mapped back in input-key order (`null` for absences), one data-miss event
per absent key in input order. -/
def getManyBy (ctx : Ctx) (queryKey : String) (keys : List String) :
    List JsValue × List Event :=
  let docs := modelFind ctx.store queryKey keys
  let valueByKey := keyBy docs queryKey
  (keys.map fun key => jsOrNull (jsGet valueByKey key),
   (keys.filter fun key => !truthy (jsGet valueByKey key)).map (Event.dataMiss ctx.modelName))

/-- The `set` batch built by `cacheSetMany`'s reduce (source lines 84-91):
null/falsy-valued entries are skipped, surviving values serialized under
the prefixed key. -/
def setBatchOf (ctx : Ctx) (entries : JsMap) : List (String × CachedString) :=
  (entries.filter fun e => truthy e.2).map fun e => (withCachePrefix ctx e.1, .ser e.2)

/-- `cacheSetMany` (source lines 79-98) as the list of issued Redis
round trips: no-op when disabled or when the filtered batch is empty,
otherwise a single batched write. -/
def cacheSetMany (ctx : Ctx) (entries : JsMap) : List CacheOp :=
  if !ctx.enable then []
  else
    let batch := setBatchOf ctx entries
    if batch.isEmpty then [] else [CacheOp.setBatch batch]

/-- Effect of one batched Redis call on the keyspace. -/
def applyOp (c : Cache) : CacheOp → Cache
  | .getBatch _ => c
  | .setBatch es => es.foldl (fun c e => fun q => if q = e.1 then some e.2 else c q) c
  | .delBatch ks => ks.foldl (fun c dk => fun q => if q = dk then none else c q) c

/-- Effect of a sequence of batched Redis calls. -/
def applyOps (c : Cache) (ops : List CacheOp) : Cache := ops.foldl applyOp c

/-- The `(key, cachedData[index])` pairs that `cacheGetManyBy`'s reduce
walks (source lines 112-120): the batched GET returns one string-or-null
per requested key, in request order. -/
def cachedPairsOf (ctx : Ctx) (cache : Cache) (keys : List String) :
    List (String × Option CachedString) :=
  keys.map fun key => (key, cache (withCachePrefix ctx key))

/-- The `cachedKeyValue` reduce (source lines 112-120), with the
accumulator explicit: skip null/empty strings, `JSON.parse` the rest (a
parse failure throws out of the whole call), record the parsed value
under the original key. -/
def buildCachedKeyValueFrom (total : JsMap) :
    List (String × Option CachedString) → Except Unit JsMap
  | [] => .ok total
  | p :: rest =>
    match p.2 with
    | some s =>
      if strTruthy s then
        match parseJSON s with
        | .ok v => buildCachedKeyValueFrom (jsSet total p.1 v) rest
        | .error e => .error e
      else buildCachedKeyValueFrom total rest
    | none => buildCachedKeyValueFrom total rest

/-- The `cachedKeyValue` reduce, started from the empty object `{}`. -/
def buildCachedKeyValue (pairs : List (String × Option CachedString)) :
    Except Unit JsMap :=
  buildCachedKeyValueFrom [] pairs

/-- `missedKeysFromCache` (source line 122): keys whose cached value is
absent or falsy, duplicates preserved. -/
def missedOf (keys : List String) (cachedKeyValue : JsMap) : List String :=
  keys.filter fun key => !truthy (jsGet cachedKeyValue key)

/-- `Object.entries(keyBy(storedData.filter(item => !!item), cacheKey))`
(source lines 128-130): the resolved records, nulls dropped, re-indexed
by the value of `cacheKey` on each record. -/
def storedDataEntriesOf (ctx : Ctx) (cacheKey : String) (missedKeys : List String) : JsMap :=
  keyBy (((getManyBy ctx cacheKey missedKeys).1).filter truthy) cacheKey

/-- One step of the `storedKeyValue` reduce (source lines 132-143): stage
a truthy record under its entry key and additionally under the
(string-coerced) value of every declared additional cache key. -/
def storedFillStep (ctx : Ctx) (total : JsMap) (kv : String × JsValue) : JsMap :=
  if truthy kv.2 then
    ctx.additionalCacheKeys.foldl
      (fun t ack => jsSet t (jsToPropKey (getFieldJs kv.2 ack)) kv.2)
      (jsSet total kv.1 kv.2)
  else total

/-- `storedKeyValue` (source lines 126-143). -/
def storedKeyValueOf (ctx : Ctx) (cacheKey : String) (missedKeys : List String) : JsMap :=
  (storedDataEntriesOf ctx cacheKey missedKeys).foldl (storedFillStep ctx) []

/-- Everything `cacheGetManyBy` produces: the response list, the cache
keyspace after the call, the Redis round trips issued, and the observer
events fired. -/
structure RunOut where
  response : List JsValue
  cache : Cache
  ops : List CacheOp
  events : List Event

/-- The enabled path of `cacheGetManyBy` after the `cachedKeyValue`
reduce succeeded (source lines 122-155), assembled from the named pieces
above. -/
def runOutOf (ctx : Ctx) (cache : Cache) (cacheKey : String) (keys : List String)
    (cachedKeyValue : JsMap) : RunOut :=
  if (missedOf keys cachedKeyValue).length > 0 then
    ⟨keys.map fun key => jsOrNull (jsGet
        (jsMerge cachedKeyValue (storedKeyValueOf ctx cacheKey (missedOf keys cachedKeyValue)))
        key),
     applyOps cache (cacheSetMany ctx (storedKeyValueOf ctx cacheKey (missedOf keys cachedKeyValue))),
     CacheOp.getBatch (keys.map (withCachePrefix ctx))
       :: cacheSetMany ctx (storedKeyValueOf ctx cacheKey (missedOf keys cachedKeyValue)),
     (missedOf keys cachedKeyValue).map (Event.cacheMiss ctx.modelName)
       ++ (getManyBy ctx cacheKey (missedOf keys cachedKeyValue)).2⟩
  else
    ⟨keys.map fun key => jsOrNull (jsGet cachedKeyValue key),
     cache, [CacheOp.getBatch (keys.map (withCachePrefix ctx))], []⟩

/-- `cacheGetManyBy` (source lines 104-156).  Disabled: delegate to
`getManyBy`, no cache traffic.  Enabled: batched GET, build
`cachedKeyValue` (propagating any parse failure), then `runOutOf`. -/
def cacheGetManyBy (ctx : Ctx) (cache : Cache) (cacheKey : String) (keys : List String) :
    Except Unit RunOut :=
  if !ctx.enable then
    let r := getManyBy ctx cacheKey keys
    Except.ok ⟨r.1, cache, [], r.2⟩
  else
    (buildCachedKeyValue (cachedPairsOf ctx cache keys)).map
      (runOutOf ctx cache cacheKey keys)

/-- `cacheClearMany` (source lines 167-170): one batched delete of the
prefixed keys, with no `enable` guard and no emptiness guard. -/
def cacheClearMany (ctx : Ctx) (keys : List String) : List CacheOp :=
  [CacheOp.delBatch (keys.map (withCachePrefix ctx))]

/-- A JS dictionary has each key at most once (invariant maintained by
`jsSet` starting from the empty object). -/
def UniqKeys (m : JsMap) : Prop := (m.map Prod.fst).Nodup

/-- Every value in the dictionary is truthy. -/
def AllTruthy (m : JsMap) : Prop := ∀ p ∈ m, truthy p.2 = true

/-- The value `cachedKeyValue` records for one key, as a function of the
string the cache holds under that key: parsed payload for a non-empty
valid serialization, nothing for an absent or empty string (a malformed
string aborts the whole call instead). -/
def hitOf : Option CachedString → Option JsValue
  | some (.ser v) => some v
  | _ => none

/-- Whether a `setBatch` round trip appears in an op trace. -/
def isSetBatch : CacheOp → Bool
  | .setBatch _ => true
  | _ => false

/-! Concrete inputs used to exercise the model (the spec's literal `Entry`
scenario and variations of it). -/

/-- The spec's literal record `{_id:"id3", slug:"slug3", title:"Prison Break"}`. -/
def docId3 : JsValue :=
  .vObj [("_id", .vStr "id3"), ("slug", .vStr "slug3"), ("title", .vStr "Prison Break")]

/-- The same record with the declared additional key field `slug` absent. -/
def docNoSlug : JsValue :=
  .vObj [("_id", .vStr "id3"), ("title", .vStr "Prison Break")]

/-- A record whose `slug` value collides with another lookup key (`id1`). -/
def docSlugId1 : JsValue :=
  .vObj [("_id", .vStr "id3"), ("slug", .vStr "id1"), ("title", .vStr "Stored")]

/-- A payload sitting in the cache under `entry:id1`. -/
def cachedRec : JsValue := .vObj [("title", .vStr "Cached")]

/-- Two minimal records used for store-order permutation checks. -/
def docA : JsValue := .vObj [("_id", .vStr "a"), ("title", .vStr "A")]

/-- Second record for permutation checks. -/
def docB : JsValue := .vObj [("_id", .vStr "b"), ("title", .vStr "B")]

/-- `Entry` model, caching enabled, additional key `slug`, store = `[docId3]`. -/
def ctxEntry : Ctx := ⟨true, "Entry", ["slug"], [docId3]⟩

/-- Same but the stored record lacks its `slug` field. -/
def ctxNoSlug : Ctx := ⟨true, "Entry", ["slug"], [docNoSlug]⟩

/-- Same but the stored record's `slug` collides with the key `id1`. -/
def ctxCollide : Ctx := ⟨true, "Entry", ["slug"], [docSlugId1]⟩

/-- Caching disabled. -/
def ctxDisabled : Ctx := ⟨false, "Entry", ["slug"], [docId3]⟩

/-- Two-record store for permutation checks, no additional keys. -/
def ctxTwo : Ctx := ⟨true, "Entry", [], [docA, docB]⟩

/-- The empty cache. -/
def emptyCache : Cache := fun _ => none

/-- A cache holding a valid payload under `entry:id1`. -/
def cacheHitId1 : Cache := fun q => if q = "entry:id1" then some (.ser cachedRec) else none

/-- A cache holding a non-JSON string under `entry:id1`. -/
def cacheMalformed : Cache := fun q => if q = "entry:id1" then some (.malformed 0) else none

/-- A cache holding the serialization of the falsy value `0` under `entry:id3`. -/
def cacheFalsy : Cache := fun q => if q = "entry:id3" then some (.ser (.vNum 0)) else none

/-- The spec's `setMany` scenario: `[["id1",{title:"Rush"}], ["id2", null]]`. -/
def entriesRush : JsMap := [("id1", .vObj [("title", .vStr "Rush")]), ("id2", .vNull)]

/-! ## Association-map lemmas -/

theorem lookupKV_cons {α : Type} (p : String × α) (t : List (String × α)) (k : String) :
    lookupKV (p :: t) k = if p.1 = k then some p.2 else lookupKV t k := rfl

theorem mem_of_lookupKV {α : Type} {m : List (String × α)} {k : String} {v : α}
    (h : lookupKV m k = some v) : (k, v) ∈ m := by
  induction m with
  | nil => simp [lookupKV] at h
  | cons p t ih =>
    rw [lookupKV_cons] at h
    by_cases hp : p.1 = k
    · simp only [hp, if_true, Option.some.injEq] at h
      exact List.mem_cons.mpr (Or.inl (by cases p; simp_all))
    · rw [if_neg hp] at h
      exact List.mem_cons.mpr (Or.inr (ih h))

theorem lookupKV_eq_none {α : Type} {m : List (String × α)} {k : String}
    (h : ∀ p ∈ m, p.1 ≠ k) : lookupKV m k = none := by
  induction m with
  | nil => rfl
  | cons p t ih =>
    rw [lookupKV_cons, if_neg (h p (List.mem_cons_self p t))]
    exact ih fun q hq => h q (List.mem_cons.mpr (Or.inr hq))

theorem jsGet_of_lookupKV {m : JsMap} {k : String} {v : JsValue}
    (h : lookupKV m k = some v) : jsGet m k = v := by simp [jsGet, h]

theorem jsGet_of_lookupKV_none {m : JsMap} {k : String}
    (h : lookupKV m k = none) : jsGet m k = .vUndefined := by simp [jsGet, h]

theorem lookupKV_append {α : Type} (a b : List (String × α)) (k : String) :
    lookupKV (a ++ b) k = (lookupKV a k).orElse fun _ => lookupKV b k := by
  induction a with
  | nil => simp [lookupKV]
  | cons p t ih =>
    rw [List.cons_append, lookupKV_cons, lookupKV_cons]
    split <;> simp [ih]

theorem lookupKV_overwrite (m : JsMap) (k : String) (v : JsValue) (k' : String) :
    lookupKV (m.map fun p => if p.1 = k then (k, v) else p) k'
      = if k' = k then (if m.any fun p => decide (p.1 = k) then some v else none)
        else lookupKV m k' := by
  induction m with
  | nil => simp [lookupKV]
  | cons p t ih =>
    simp only [List.map_cons, List.any_cons]
    by_cases hp : p.1 = k
    · by_cases hk : k' = k
      · simp [lookupKV_cons, hp, hk, ih]
      · have hk2 : ¬k = k' := fun h => hk h.symm
        simp [lookupKV_cons, hp, hk, hk2, ih]
    · by_cases hk : k' = k
      · subst hk
        by_cases hpk' : p.1 = k'
        · exact absurd hpk' hp
        · simp only [lookupKV_cons, if_neg hpk', ih, if_pos rfl,
            decide_eq_false hpk', Bool.false_or]
      · by_cases hpk' : p.1 = k'
        · simp [lookupKV_cons, hp, hpk', hk, ih]
        · simp [lookupKV_cons, hp, hk, hpk', ih]

theorem jsGet_jsSet (m : JsMap) (k : String) (v : JsValue) (k' : String) :
    jsGet (jsSet m k v) k' = if k' = k then v else jsGet m k' := by
  unfold jsSet
  by_cases hany : (m.any fun p => decide (p.1 = k)) = true
  · rw [if_pos hany, jsGet, lookupKV_overwrite, hany]
    by_cases hk : k' = k <;> simp [hk, jsGet]
  · rw [if_neg hany, jsGet, lookupKV_append]
    by_cases hk : k' = k
    · have hnone : lookupKV m k = none := lookupKV_eq_none fun p hp hpk =>
        hany (List.any_eq_true.mpr ⟨p, hp, by simp [hpk]⟩)
      simp [hk, hnone, lookupKV]
    · have hk2 : ¬k = k' := fun h => hk h.symm
      cases h : lookupKV m k' <;> simp [jsGet, h, lookupKV, hk, hk2]

theorem jsSet_mem {m : JsMap} {k : String} {v : JsValue} {q : String × JsValue}
    (h : q ∈ jsSet m k v) : q = (k, v) ∨ q ∈ m := by
  unfold jsSet at h
  split at h
  · obtain ⟨p, hp, hq⟩ := List.mem_map.mp h
    by_cases hpk : p.1 = k
    · rw [if_pos hpk] at hq
      exact Or.inl hq.symm
    · rw [if_neg hpk] at hq
      exact Or.inr (hq ▸ hp)
  · rcases List.mem_append.mp h with h | h
    · exact Or.inr h
    · simp only [List.mem_singleton] at h
      exact Or.inl h

theorem uniqKeys_nil : UniqKeys [] := List.nodup_nil

theorem uniqKeys_jsSet {m : JsMap} (h : UniqKeys m) (k : String) (v : JsValue) :
    UniqKeys (jsSet m k v) := by
  unfold UniqKeys jsSet
  split
  · have heq : (m.map fun p => if p.1 = k then (k, v) else p).map Prod.fst
        = m.map Prod.fst := by
      rw [List.map_map]
      apply List.map_congr_left
      intro p _
      by_cases hp : p.1 = k <;> simp [hp]
    rw [heq]; exact h
  · next hany =>
    rw [List.map_append]
    refine List.Nodup.append h (List.nodup_singleton k) ?_
    intro a ha hb
    simp only [List.map_cons, List.map_nil, List.mem_singleton] at hb
    subst hb
    obtain ⟨p, hp, hpk⟩ := List.mem_map.mp ha
    exact hany (List.any_eq_true.mpr ⟨p, hp, by simp [hpk]⟩)

theorem allTruthy_nil : AllTruthy [] := fun p hp => absurd hp (List.not_mem_nil p)

theorem allTruthy_jsSet {m : JsMap} (h : AllTruthy m) {v : JsValue}
    (hv : truthy v = true) (k : String) : AllTruthy (jsSet m k v) := by
  intro p hp
  rcases jsSet_mem hp with rfl | hm
  · exact hv
  · exact h p hm

theorem allTruthy_lookupKV {m : JsMap} (h : AllTruthy m) {k : String} {v : JsValue}
    (hl : lookupKV m k = some v) : truthy v = true := h (k, v) (mem_of_lookupKV hl)

theorem jsGet_truthy_lookup {m : JsMap} (h : AllTruthy m) (k : String) :
    truthy (jsGet m k) = true ↔ ∃ v, lookupKV m k = some v := by
  constructor
  · intro ht
    cases hl : lookupKV m k with
    | none => rw [jsGet_of_lookupKV_none hl] at ht; simp [truthy] at ht
    | some v => exact ⟨v, rfl⟩
  · rintro ⟨v, hl⟩
    rw [jsGet_of_lookupKV hl]
    exact allTruthy_lookupKV h hl

/-! ## Fold lemmas -/

theorem foldl_invariant {α β : Type} (P : β → Prop) (step : β → α → β)
    (hstep : ∀ m x, P m → P (step m x)) :
    ∀ (l : List α) (init : β), P init → P (l.foldl step init)
  | [], _, h => h
  | x :: t, init, h => foldl_invariant P step hstep t (step init x) (hstep init x h)

theorem foldl_established {α β : Type} (P : β → Prop) (step : β → α → β)
    (hstep : ∀ m x, P m → P (step m x)) {x₀ : α}
    (hest : ∀ m, P (step m x₀)) :
    ∀ (l : List α), x₀ ∈ l → ∀ init : β, P (l.foldl step init) := by
  intro l hx
  induction l with
  | nil => cases hx
  | cons a t ih =>
    intro init
    rcases List.mem_cons.mp hx with rfl | hmem
    · exact foldl_invariant P step hstep t _ (hest init)
    · exact ih hmem _

theorem jsGet_foldl_jsSet {α : Type} (key : α → String) (val : α → JsValue)
    (l : List α) (a : JsMap) (k : String) :
    jsGet (l.foldl (fun m x => jsSet m (key x) (val x)) a) k
      = match (l.filter fun x => decide (key x = k)).getLast? with
        | some x => val x
        | none => jsGet a k := by
  induction l generalizing a with
  | nil => rfl
  | cons x t ih =>
    rw [List.foldl_cons, ih]
    by_cases hx : key x = k
    · rw [List.filter_cons_of_pos (by simp [hx])]
      cases hft : t.filter fun y => decide (key y = k) with
      | nil =>
        simp only [List.getLast?_nil, List.getLast?_singleton]
        rw [jsGet_jsSet, if_pos hx.symm]
      | cons b u =>
        rw [List.getLast?_cons_cons]
        obtain ⟨c, hc⟩ := Option.isSome_iff_exists.mp
          (List.getLast?_isSome.mpr (List.cons_ne_nil b u))
        rw [hc]
    · rw [List.filter_cons_of_neg (by simp [hx])]
      cases hft : t.filter fun y => decide (key y = k) with
      | nil =>
        simp only [List.getLast?_nil]
        rw [jsGet_jsSet, if_neg fun h => hx h.symm]
      | cons b u =>
        obtain ⟨c, hc⟩ := Option.isSome_iff_exists.mp
          (List.getLast?_isSome.mpr (List.cons_ne_nil b u))
        rw [hc]

theorem jsGet_keyBy (docs : List JsValue) (f k : String) :
    jsGet (keyBy docs f) k
      = match (docs.filter fun d => decide (jsToPropKey (getFieldJs d f) = k)).getLast? with
        | some d => d
        | none => .vUndefined := by
  have h : keyBy docs f
      = docs.foldl (fun m x => jsSet m ((fun d => jsToPropKey (getFieldJs d f)) x) (id x)) [] := rfl
  rw [h, jsGet_foldl_jsSet (fun d => jsToPropKey (getFieldJs d f)) id docs [] k]
  cases (docs.filter fun d => decide (jsToPropKey (getFieldJs d f) = k)).getLast? <;> rfl

theorem jsGet_jsMerge (a b : JsMap) (k : String) :
    jsGet (jsMerge a b) k
      = match (b.filter fun p => decide (p.1 = k)).getLast? with
        | some p => p.2
        | none => jsGet a k := by
  have h : jsMerge a b
      = b.foldl (fun m x => jsSet m (Prod.fst x) (Prod.snd x)) a := rfl
  rw [h, jsGet_foldl_jsSet Prod.fst Prod.snd b a k]
  cases (b.filter fun p => decide (p.1 = k)).getLast? <;> rfl

theorem filter_key_eq_nil {α : Type} {t : List (String × α)} {k : String}
    (h : k ∉ t.map Prod.fst) : t.filter (fun p => decide (p.1 = k)) = [] := by
  rw [List.filter_eq_nil_iff]
  intro p hp
  simp only [decide_eq_true_eq]
  intro hpk
  exact h (List.mem_map.mpr ⟨p, hp, hpk⟩)

theorem getLast?_filter_of_uniq {m : JsMap} (h : UniqKeys m) (k : String) :
    (m.filter fun p => decide (p.1 = k)).getLast? = (lookupKV m k).map fun v => (k, v) := by
  induction m with
  | nil => rfl
  | cons p t ih =>
    unfold UniqKeys at h
    rw [List.map_cons, List.nodup_cons] at h
    by_cases hp : p.1 = k
    · rw [List.filter_cons_of_pos (by simp [hp]), lookupKV_cons, if_pos hp]
      have hnil : t.filter (fun q => decide (q.1 = k)) = [] :=
        filter_key_eq_nil (hp ▸ h.1)
      rw [hnil]
      simp only [List.getLast?_singleton, Option.map_some']
      cases p
      simp_all
    · rw [List.filter_cons_of_neg (by simp [hp]), lookupKV_cons, if_neg hp]
      exact ih h.2

theorem jsGet_jsMerge_uniq {b : JsMap} (hb : UniqKeys b) (a : JsMap) (k : String) :
    jsGet (jsMerge a b) k = (lookupKV b k).getD (jsGet a k) := by
  rw [jsGet_jsMerge, getLast?_filter_of_uniq hb]
  cases lookupKV b k <;> simp

/-! ## Cache-key and batched-write lemmas -/

theorem withCachePrefix_inj {ctx : Ctx} {k₁ k₂ : String}
    (h : withCachePrefix ctx k₁ = withCachePrefix ctx k₂) : k₁ = k₂ := by
  unfold withCachePrefix at h
  have hd := congrArg String.data h
  simp only [String.data_append] at hd
  have h2 := List.append_cancel_left hd
  exact String.ext (by simpa using h2)

theorem applySetFold_not_mem {es : List (String × CachedString)} {q : String}
    (h : ∀ e ∈ es, e.1 ≠ q) (c : Cache) :
    (es.foldl (fun c e => fun r => if r = e.1 then some e.2 else c r) c) q = c q := by
  induction es generalizing c with
  | nil => rfl
  | cons e t ih =>
    rw [List.foldl_cons, ih fun x hx => h x (List.mem_cons.mpr (Or.inr hx))]
    rw [if_neg fun hq => h e (List.mem_cons_self e t) hq.symm]

theorem applySetFold_lookup {es : List (String × CachedString)}
    (hu : (es.map Prod.fst).Nodup) (c : Cache) (q : String) :
    (es.foldl (fun c e => fun r => if r = e.1 then some e.2 else c r) c) q
      = (lookupKV es q).orElse fun _ => c q := by
  induction es generalizing c with
  | nil => rfl
  | cons e t ih =>
    rw [List.map_cons, List.nodup_cons] at hu
    rw [List.foldl_cons, lookupKV_cons]
    by_cases hq : e.1 = q
    · subst hq
      have hnone : lookupKV t e.1 = none := lookupKV_eq_none fun p hp hpk =>
        hu.1 (List.mem_map.mpr ⟨p, hp, hpk⟩)
      rw [ih hu.2, hnone, if_pos rfl]
      simp
    · rw [ih hu.2]
      have hc : (fun r => if r = e.1 then some e.2 else c r) q = c q :=
        if_neg fun h => hq h.symm
      rw [if_neg hq]
      cases hl : lookupKV t q <;> simp [hl, hc]

theorem lookupKV_map_prefixed (ctx : Ctx) (m : JsMap) (k : String) :
    lookupKV (m.map fun p => (withCachePrefix ctx p.1, CachedString.ser p.2))
        (withCachePrefix ctx k)
      = (lookupKV m k).map CachedString.ser := by
  induction m with
  | nil => rfl
  | cons p t ih =>
    rw [List.map_cons, lookupKV_cons, lookupKV_cons]
    by_cases hp : p.1 = k
    · rw [if_pos (by rw [hp]), if_pos hp]
      rfl
    · rw [if_neg fun h => hp (withCachePrefix_inj h), if_neg hp, ih]

theorem filter_truthy_self {m : JsMap} (h : AllTruthy m) :
    (m.filter fun e => truthy e.2) = m :=
  List.filter_eq_self.mpr fun p hp => h p hp

theorem setBatchOf_eq_map {ctx : Ctx} {m : JsMap} (h : AllTruthy m) :
    setBatchOf ctx m = m.map fun p => (withCachePrefix ctx p.1, CachedString.ser p.2) := by
  unfold setBatchOf
  rw [filter_truthy_self h]

theorem setBatch_keys_nodup {ctx : Ctx} {m : JsMap} (hu : UniqKeys m) :
    ((m.map fun p => (withCachePrefix ctx p.1, CachedString.ser p.2)).map Prod.fst).Nodup := by
  rw [List.map_map]
  have : (Prod.fst ∘ fun p : String × JsValue =>
      (withCachePrefix ctx p.1, CachedString.ser p.2))
      = (withCachePrefix ctx) ∘ Prod.fst := rfl
  rw [this, ← List.map_map]
  exact hu.map fun a b hab => withCachePrefix_inj hab

/-- After `cacheSetMany` writes an all-truthy, unique-keyed dictionary
(enabled), a prefixed key reads back the serialized staged value, and any
key not staged is untouched. -/
theorem cacheSetMany_apply {ctx : Ctx} (hen : ctx.enable = true) {m : JsMap}
    (ht : AllTruthy m) (hu : UniqKeys m) (c : Cache) (k : String) :
    (applyOps c (cacheSetMany ctx m)) (withCachePrefix ctx k)
      = ((lookupKV m k).map CachedString.ser).orElse
          fun _ => c (withCachePrefix ctx k) := by
  unfold cacheSetMany
  rw [hen]
  simp only [Bool.not_true, Bool.false_eq_true, if_false]
  rw [setBatchOf_eq_map ht]
  by_cases hemp : (m.map fun p => (withCachePrefix ctx p.1, CachedString.ser p.2)).isEmpty
  · rw [if_pos hemp]
    rw [List.isEmpty_iff] at hemp
    have hm : m = [] := by
      cases m with
      | nil => rfl
      | cons p t => simp [List.map_cons] at hemp
    subst hm
    rfl
  · rw [if_neg hemp]
    have happ : applyOps c
        [CacheOp.setBatch (m.map fun p => (withCachePrefix ctx p.1, CachedString.ser p.2))]
        = ((m.map fun p => (withCachePrefix ctx p.1, CachedString.ser p.2)).foldl
            (fun c e => fun r => if r = e.1 then some e.2 else c r) c) := rfl
    rw [happ, applySetFold_lookup (setBatch_keys_nodup hu), lookupKV_map_prefixed]

/-! ## `cachedKeyValue` lemmas -/

theorem buildFrom_cons (total : JsMap) (k' : String) (o : Option CachedString)
    (rest : List (String × Option CachedString)) :
    buildCachedKeyValueFrom total ((k', o) :: rest)
      = match o with
        | some (.ser v) => buildCachedKeyValueFrom (jsSet total k' v) rest
        | some (.malformed _) => .error ()
        | some .empty => buildCachedKeyValueFrom total rest
        | none => buildCachedKeyValueFrom total rest := by
  cases o with
  | none => rfl
  | some s => cases s <;> rfl

theorem buildFrom_error {k : String} {t : Nat} :
    ∀ (pairs : List (String × Option CachedString)) (total : JsMap),
      (k, some (CachedString.malformed t)) ∈ pairs →
      buildCachedKeyValueFrom total pairs = .error () := by
  intro pairs
  induction pairs with
  | nil => intro total h; cases h
  | cons p rest ih =>
    intro total hmem
    obtain ⟨k', o⟩ := p
    rw [buildFrom_cons]
    rcases List.mem_cons.mp hmem with heq | hm2
    · cases heq
      rfl
    · clear hmem
      cases o with
      | none => exact ih total hm2
      | some s =>
        cases s with
        | ser v => exact ih _ hm2
        | malformed t' => rfl
        | empty => exact ih total hm2

theorem buildFrom_ok :
    ∀ (pairs : List (String × Option CachedString)) (total : JsMap),
      (∀ k t, (k, some (CachedString.malformed t)) ∉ pairs) →
      ∃ kv, buildCachedKeyValueFrom total pairs = .ok kv := by
  intro pairs
  induction pairs with
  | nil => intro total _; exact ⟨total, rfl⟩
  | cons p rest ih =>
    intro total h
    have hrest : ∀ k t, (k, some (CachedString.malformed t)) ∉ rest :=
      fun k t hk => h k t (List.mem_cons.mpr (Or.inr hk))
    obtain ⟨k', o⟩ := p
    rw [buildFrom_cons]
    cases o with
    | none => exact ih total hrest
    | some s =>
      cases s with
      | ser v => exact ih _ hrest
      | malformed t' => exact absurd (List.mem_cons_self _ _) (h k' t')
      | empty => exact ih total hrest

theorem buildFrom_get_skip {g : String → Option CachedString} {a : String}
    {rest : List String} {total kv : JsMap}
    (hnone : hitOf (g a) = none)
    (ihres : ∀ k, jsGet kv k
      = if k ∈ rest then (hitOf (g k)).getD (jsGet total k) else jsGet total k) :
    ∀ k, jsGet kv k
      = if k ∈ a :: rest then (hitOf (g k)).getD (jsGet total k) else jsGet total k := by
  intro k
  rw [ihres k]
  by_cases hka : k = a
  · subst hka
    by_cases hkr : k ∈ rest
    · rw [if_pos hkr, if_pos (List.mem_cons.mpr (Or.inr hkr))]
    · rw [if_neg hkr, if_pos (List.mem_cons_self k rest), hnone]
      rfl
  · have hiff : k ∈ a :: rest ↔ k ∈ rest := by simp [List.mem_cons, hka]
    by_cases hkr : k ∈ rest
    · rw [if_pos hkr, if_pos (hiff.mpr hkr)]
    · rw [if_neg hkr, if_neg fun hc => hkr (hiff.mp hc)]

theorem buildFrom_get_write {g : String → Option CachedString} {a : String}
    {rest : List String} {total kv : JsMap} {v : JsValue}
    (hsome : hitOf (g a) = some v)
    (ihres : ∀ k, jsGet kv k
      = if k ∈ rest then (hitOf (g k)).getD (jsGet (jsSet total a v) k)
        else jsGet (jsSet total a v) k) :
    ∀ k, jsGet kv k
      = if k ∈ a :: rest then (hitOf (g k)).getD (jsGet total k) else jsGet total k := by
  intro k
  rw [ihres k, jsGet_jsSet]
  by_cases hka : k = a
  · subst hka
    rw [if_pos rfl, hsome, if_pos (List.mem_cons_self k rest)]
    by_cases hkr : k ∈ rest
    · rw [if_pos hkr]
      rfl
    · rw [if_neg hkr]
      rfl
  · rw [if_neg hka]
    have hiff : k ∈ a :: rest ↔ k ∈ rest := by simp [List.mem_cons, hka]
    by_cases hkr : k ∈ rest
    · rw [if_pos hkr, if_pos (hiff.mpr hkr)]
    · rw [if_neg hkr, if_neg fun hc => hkr (hiff.mp hc)]

theorem buildFrom_get {g : String → Option CachedString} :
    ∀ (keys : List String) (total kv : JsMap),
      buildCachedKeyValueFrom total (keys.map fun k => (k, g k)) = .ok kv →
      ∀ k, jsGet kv k
        = if k ∈ keys then (hitOf (g k)).getD (jsGet total k) else jsGet total k := by
  intro keys
  induction keys with
  | nil =>
    intro total kv h k
    cases h
    simp
  | cons a rest ih =>
    intro total kv h k
    rw [List.map_cons, buildFrom_cons] at h
    cases hg : g a with
    | none =>
      rw [hg] at h
      exact buildFrom_get_skip (by rw [hg]; rfl) (ih total kv h) k
    | some s =>
      cases s with
      | ser v =>
        rw [hg] at h
        exact buildFrom_get_write (by rw [hg]; rfl) (ih (jsSet total a v) kv h) k
      | malformed t =>
        rw [hg] at h
        cases h
      | empty =>
        rw [hg] at h
        exact buildFrom_get_skip (by rw [hg]; rfl) (ih total kv h) k

theorem cachedPairsOf_eq_map (ctx : Ctx) (cache : Cache) (keys : List String) :
    cachedPairsOf ctx cache keys
      = keys.map fun k => (k, cache (withCachePrefix ctx k)) := rfl

theorem buildCachedKeyValue_get {ctx : Ctx} {cache : Cache} {keys : List String} {kv : JsMap}
    (h : buildCachedKeyValue (cachedPairsOf ctx cache keys) = .ok kv) (k : String) :
    jsGet kv k
      = if k ∈ keys then (hitOf (cache (withCachePrefix ctx k))).getD .vUndefined
        else .vUndefined := by
  have := buildFrom_get keys [] kv (by rw [← cachedPairsOf_eq_map]; exact h) k
  simpa [jsGet, lookupKV] using this

theorem buildCachedKeyValue_error {ctx : Ctx} {cache : Cache} {keys : List String}
    {k : String} {t : Nat} (hk : k ∈ keys)
    (hm : cache (withCachePrefix ctx k) = some (.malformed t)) :
    buildCachedKeyValue (cachedPairsOf ctx cache keys) = .error () := by
  apply buildFrom_error
  rw [cachedPairsOf_eq_map]
  exact List.mem_map.mpr ⟨k, hk, by rw [hm]⟩

theorem buildCachedKeyValue_ok {ctx : Ctx} {cache : Cache} {keys : List String}
    (h : ∀ k ∈ keys, ∀ t, cache (withCachePrefix ctx k) ≠ some (.malformed t)) :
    ∃ kv, buildCachedKeyValue (cachedPairsOf ctx cache keys) = .ok kv := by
  apply buildFrom_ok
  intro k t hmem
  rw [cachedPairsOf_eq_map] at hmem
  obtain ⟨k', hk', heq⟩ := List.mem_map.mp hmem
  have h1 : k' = k := congrArg Prod.fst heq
  subst h1
  exact h k' hk' t (congrArg Prod.snd heq)

theorem no_malformed_of_build_ok {ctx : Ctx} {cache : Cache} {keys : List String} {kv : JsMap}
    (h : buildCachedKeyValue (cachedPairsOf ctx cache keys) = .ok kv) :
    ∀ k ∈ keys, ∀ t, cache (withCachePrefix ctx k) ≠ some (.malformed t) := by
  intro k hk t hm
  rw [buildCachedKeyValue_error hk hm] at h
  cases h

/-! ## `storedKeyValue` invariants -/

theorem truthy_jsGet_jsSet {m : JsMap} {q k : String} {v : JsValue}
    (hv : truthy v = true) (hm : truthy (jsGet m q) = true) :
    truthy (jsGet (jsSet m k v) q) = true := by
  rw [jsGet_jsSet]
  by_cases h : q = k
  · rw [if_pos h]; exact hv
  · rw [if_neg h]; exact hm

theorem allTruthy_storedFillStep {ctx : Ctx} {m : JsMap} (h : AllTruthy m)
    (kv : String × JsValue) : AllTruthy (storedFillStep ctx m kv) := by
  unfold storedFillStep
  by_cases ht : truthy kv.2 = true
  · rw [if_pos ht]
    exact foldl_invariant AllTruthy
      (fun t ack => jsSet t (jsToPropKey (getFieldJs kv.2 ack)) kv.2)
      (fun t ack htt => allTruthy_jsSet htt ht _)
      ctx.additionalCacheKeys _ (allTruthy_jsSet h ht _)
  · rw [if_neg ht]; exact h

theorem allTruthy_storedKeyValueOf (ctx : Ctx) (ck : String) (missed : List String) :
    AllTruthy (storedKeyValueOf ctx ck missed) :=
  foldl_invariant AllTruthy (storedFillStep ctx)
    (fun _ kv hm => allTruthy_storedFillStep hm kv)
    (storedDataEntriesOf ctx ck missed) [] allTruthy_nil

theorem uniqKeys_storedFillStep {ctx : Ctx} {m : JsMap} (h : UniqKeys m)
    (kv : String × JsValue) : UniqKeys (storedFillStep ctx m kv) := by
  unfold storedFillStep
  by_cases ht : truthy kv.2 = true
  · rw [if_pos ht]
    exact foldl_invariant UniqKeys
      (fun t ack => jsSet t (jsToPropKey (getFieldJs kv.2 ack)) kv.2)
      (fun t ack htt => uniqKeys_jsSet htt _ _)
      ctx.additionalCacheKeys _ (uniqKeys_jsSet h _ _)
  · rw [if_neg ht]; exact h

theorem uniqKeys_storedKeyValueOf (ctx : Ctx) (ck : String) (missed : List String) :
    UniqKeys (storedKeyValueOf ctx ck missed) :=
  foldl_invariant UniqKeys (storedFillStep ctx)
    (fun _ kv hm => uniqKeys_storedFillStep hm kv)
    (storedDataEntriesOf ctx ck missed) [] uniqKeys_nil

theorem truthy_storedFillStep {ctx : Ctx} {m : JsMap} {q : String}
    (hm : truthy (jsGet m q) = true) (kv : String × JsValue) :
    truthy (jsGet (storedFillStep ctx m kv) q) = true := by
  unfold storedFillStep
  by_cases ht : truthy kv.2 = true
  · rw [if_pos ht]
    exact foldl_invariant (fun t => truthy (jsGet t q) = true)
      (fun t ack => jsSet t (jsToPropKey (getFieldJs kv.2 ack)) kv.2)
      (fun t ack htt => truthy_jsGet_jsSet ht htt)
      ctx.additionalCacheKeys _ (truthy_jsGet_jsSet ht hm)
  · rw [if_neg ht]; exact hm

/-- A key carried by some entry of `storedDataEntries` with a truthy
record ends up filled (truthy) in `storedKeyValue`: staging the record
under its own entry key establishes it, and every later staging step can
only replace it with another truthy record. -/
theorem storedKeyValueOf_filled {ctx : Ctx} {ck : String} {missed : List String}
    {κ : String} {w : JsValue}
    (hmem : (κ, w) ∈ storedDataEntriesOf ctx ck missed) (hw : truthy w = true) :
    truthy (jsGet (storedKeyValueOf ctx ck missed) κ) = true := by
  unfold storedKeyValueOf
  refine foldl_established (fun m => truthy (jsGet m κ) = true) (storedFillStep ctx)
    (fun m kv hm => truthy_storedFillStep hm kv) ?_ _ hmem _
  intro m
  unfold storedFillStep
  rw [if_pos hw]
  refine foldl_invariant (fun t => truthy (jsGet t κ) = true)
    (fun t ack => jsSet t (jsToPropKey (getFieldJs w ack)) w)
    (fun t ack htt => truthy_jsGet_jsSet hw htt)
    ctx.additionalCacheKeys _ ?_
  show truthy (jsGet (jsSet m κ w) κ) = true
  rw [jsGet_jsSet, if_pos rfl]
  exact hw

/-! ## `keyBy` and `modelFind` lemmas -/

theorem jsGet_keyBy_elim {docs : List JsValue} {f k : String}
    (h : truthy (jsGet (keyBy docs f) k) = true) :
    ∃ d ∈ docs, jsToPropKey (getFieldJs d f) = k ∧ jsGet (keyBy docs f) k = d := by
  rw [jsGet_keyBy] at h ⊢
  cases hgl : (docs.filter fun d => decide (jsToPropKey (getFieldJs d f) = k)).getLast? with
  | none => rw [hgl] at h; simp [truthy] at h
  | some d =>
    have hd := List.mem_of_getLast?_eq_some hgl
    rw [List.mem_filter] at hd
    exact ⟨d, hd.1, by simpa using hd.2, rfl⟩

theorem jsGet_keyBy_intro {docs : List JsValue} {f k : String} {d : JsValue}
    (hd : d ∈ docs) (hk : jsToPropKey (getFieldJs d f) = k) :
    ∃ w ∈ docs, jsToPropKey (getFieldJs w f) = k ∧ jsGet (keyBy docs f) k = w := by
  have hdf : d ∈ docs.filter fun x => decide (jsToPropKey (getFieldJs x f) = k) :=
    List.mem_filter.mpr ⟨hd, by simpa using hk⟩
  obtain ⟨w, hw⟩ := Option.isSome_iff_exists.mp
    (List.getLast?_isSome.mpr (List.ne_nil_of_mem hdf))
  have hwf := List.mem_of_getLast?_eq_some hw
  rw [List.mem_filter] at hwf
  refine ⟨w, hwf.1, by simpa using hwf.2, ?_⟩
  rw [jsGet_keyBy, hw]

theorem mem_modelFind {store : List JsValue} {qk : String} {keys : List String} {d : JsValue} :
    d ∈ modelFind store qk keys
      ↔ d ∈ store ∧ (keys.any fun k => fieldMatches (getFieldJs d (keyLookupOf qk)) k) = true := by
  unfold modelFind
  rw [List.mem_filter]

theorem truthy_of_fieldMatches {d : JsValue} {f k : String}
    (h : fieldMatches (getFieldJs d f) k = true) : truthy d = true := by
  cases d <;> simp [getFieldJs, fieldMatches, truthy] at h ⊢

theorem truthy_of_mem_modelFind {store : List JsValue} {qk : String} {keys : List String}
    {d : JsValue} (h : d ∈ modelFind store qk keys) : truthy d = true := by
  obtain ⟨-, hmatch⟩ := mem_modelFind.mp h
  obtain ⟨k, -, hk⟩ := List.any_eq_true.mp hmatch
  exact truthy_of_fieldMatches hk

/-! ## `cacheGetManyBy` run lemmas -/

theorem storedKeyValueOf_nil (ctx : Ctx) (ck : String) :
    storedKeyValueOf ctx ck [] = [] := rfl

theorem jsMerge_nil (a : JsMap) : jsMerge a [] = a := rfl

theorem missedOf_nil_of_not_pos {keys : List String} {kv : JsMap}
    (h : ¬(missedOf keys kv).length > 0) : missedOf keys kv = [] := by
  rcases Nat.eq_zero_or_pos (missedOf keys kv).length with h0 | hpos
  · exact List.length_eq_zero.mp h0
  · exact absurd hpos h

theorem runOutOf_response (ctx : Ctx) (cache : Cache) (ck : String)
    (keys : List String) (kv : JsMap) :
    (runOutOf ctx cache ck keys kv).response
      = keys.map fun key => jsOrNull
          (jsGet (jsMerge kv (storedKeyValueOf ctx ck (missedOf keys kv))) key) := by
  unfold runOutOf
  by_cases h : (missedOf keys kv).length > 0
  · rw [if_pos h]
  · rw [if_neg h, missedOf_nil_of_not_pos h, storedKeyValueOf_nil, jsMerge_nil]

theorem runOutOf_cache_lookup {ctx : Ctx} (hen : ctx.enable = true)
    (cache : Cache) (ck : String) (keys : List String) (kv : JsMap) (k : String) :
    (runOutOf ctx cache ck keys kv).cache (withCachePrefix ctx k)
      = ((lookupKV (storedKeyValueOf ctx ck (missedOf keys kv)) k).map CachedString.ser).orElse
          fun _ => cache (withCachePrefix ctx k) := by
  unfold runOutOf
  by_cases h : (missedOf keys kv).length > 0
  · rw [if_pos h]
    exact cacheSetMany_apply hen (allTruthy_storedKeyValueOf ctx ck _)
      (uniqKeys_storedKeyValueOf ctx ck _) cache k
  · rw [if_neg h, missedOf_nil_of_not_pos h, storedKeyValueOf_nil]
    rfl

theorem runOutOf_events (ctx : Ctx) (cache : Cache) (ck : String)
    (keys : List String) (kv : JsMap) :
    (runOutOf ctx cache ck keys kv).events
      = if (missedOf keys kv).length > 0 then
          (missedOf keys kv).map (Event.cacheMiss ctx.modelName)
            ++ (getManyBy ctx ck (missedOf keys kv)).2
        else [] := by
  unfold runOutOf
  by_cases h : (missedOf keys kv).length > 0
  · rw [if_pos h, if_pos h]
  · rw [if_neg h, if_neg h]

theorem runOutOf_ops (ctx : Ctx) (cache : Cache) (ck : String)
    (keys : List String) (kv : JsMap) :
    (runOutOf ctx cache ck keys kv).ops
      = CacheOp.getBatch (keys.map (withCachePrefix ctx))
          :: (if (missedOf keys kv).length > 0 then
                cacheSetMany ctx (storedKeyValueOf ctx ck (missedOf keys kv))
              else []) := by
  unfold runOutOf
  by_cases h : (missedOf keys kv).length > 0
  · rw [if_pos h, if_pos h]
  · rw [if_neg h, if_neg h]

theorem cacheGetManyBy_disabled {ctx : Ctx} (hdis : ctx.enable = false)
    (cache : Cache) (ck : String) (keys : List String) :
    cacheGetManyBy ctx cache ck keys
      = .ok ⟨(getManyBy ctx ck keys).1, cache, [], (getManyBy ctx ck keys).2⟩ := by
  unfold cacheGetManyBy
  rw [hdis]
  rfl

theorem cacheGetManyBy_enabled {ctx : Ctx} (hen : ctx.enable = true)
    (cache : Cache) (ck : String) (keys : List String) :
    cacheGetManyBy ctx cache ck keys
      = (buildCachedKeyValue (cachedPairsOf ctx cache keys)).map
          (runOutOf ctx cache ck keys) := by
  unfold cacheGetManyBy
  rw [hen]
  rfl

theorem cacheGetManyBy_run {ctx : Ctx} (hen : ctx.enable = true)
    {cache : Cache} {ck : String} {keys : List String} {kv : JsMap}
    (hkv : buildCachedKeyValue (cachedPairsOf ctx cache keys) = .ok kv) :
    cacheGetManyBy ctx cache ck keys = .ok (runOutOf ctx cache ck keys kv) := by
  rw [cacheGetManyBy_enabled hen, hkv]
  rfl

theorem jsGet_merge_stored (ctx : Ctx) (ck : String) (missed : List String)
    (kv : JsMap) (k : String) :
    jsGet (jsMerge kv (storedKeyValueOf ctx ck missed)) k
      = if truthy (jsGet (storedKeyValueOf ctx ck missed) k) = true then
          jsGet (storedKeyValueOf ctx ck missed) k
        else jsGet kv k := by
  rw [jsGet_jsMerge_uniq (uniqKeys_storedKeyValueOf ctx ck missed)]
  cases hl : lookupKV (storedKeyValueOf ctx ck missed) k with
  | none =>
    rw [jsGet_of_lookupKV_none hl]
    rw [if_neg (by simp [truthy])]
    rfl
  | some v =>
    rw [jsGet_of_lookupKV hl]
    rw [if_pos (allTruthy_lookupKV (allTruthy_storedKeyValueOf ctx ck missed) hl)]
    rfl

/-! ## Further support lemmas -/

theorem getManyBy_fst (ctx : Ctx) (qk : String) (keys : List String) :
    (getManyBy ctx qk keys).1
      = keys.map fun key =>
          jsOrNull (jsGet (keyBy (modelFind ctx.store qk keys) qk) key) := rfl

theorem getManyBy_snd (ctx : Ctx) (qk : String) (keys : List String) :
    (getManyBy ctx qk keys).2
      = (keys.filter fun key =>
          !truthy (jsGet (keyBy (modelFind ctx.store qk keys) qk) key)).map
          (Event.dataMiss ctx.modelName) := rfl

theorem except_ok_of_map {α β : Type} {e : Except Unit α} {g : α → β} {b : β}
    (h : e.map g = .ok b) : ∃ a, e = .ok a ∧ g a = b := by
  cases e with
  | ok a =>
    refine ⟨a, rfl, ?_⟩
    cases h
    rfl
  | error err => cases h

theorem applyDelFold (ks : List String) (c : Cache) (q : String) :
    (ks.foldl (fun c dk => fun r => if r = dk then none else c r) c) q
      = if q ∈ ks then none else c q := by
  induction ks generalizing c with
  | nil => simp
  | cons d t ih =>
    rw [List.foldl_cons, ih]
    by_cases hqt : q ∈ t
    · rw [if_pos hqt, if_pos (List.mem_cons.mpr (Or.inr hqt))]
    · rw [if_neg hqt]
      by_cases hqd : q = d
      · rw [if_pos hqd, if_pos (List.mem_cons.mpr (Or.inl hqd))]
      · rw [if_neg hqd, if_neg (by simp [List.mem_cons, hqd, hqt])]

theorem length_filter_le_one {α : Type} {g : α → String} {l : List α} {k : String}
    (h : (l.map g).Nodup) : (l.filter fun x => decide (g x = k)).length ≤ 1 := by
  induction l with
  | nil => simp
  | cons a t ih =>
    rw [List.map_cons, List.nodup_cons] at h
    by_cases hga : g a = k
    · rw [List.filter_cons_of_pos (by simpa using hga)]
      have hnil : t.filter (fun x => decide (g x = k)) = [] := by
        rw [List.filter_eq_nil_iff]
        intro x hx
        simp only [decide_eq_true_eq]
        intro hgx
        exact h.1 (List.mem_map.mpr ⟨x, hx, hgx.trans hga.symm⟩)
      rw [hnil]
      simp
    · rw [List.filter_cons_of_neg (by simpa using hga)]
      exact ih h.2

theorem getLast?_filter_perm {α : Type} {g : α → String} {l l' : List α}
    (hp : l.Perm l') (h : (l.map g).Nodup) (k : String) :
    (l.filter fun x => decide (g x = k)).getLast?
      = (l'.filter fun x => decide (g x = k)).getLast? := by
  have hpf := hp.filter (fun x => decide (g x = k))
  have hle : (l.filter fun x => decide (g x = k)).length ≤ 1 := length_filter_le_one h
  cases hf : l.filter fun x => decide (g x = k) with
  | nil =>
    rw [hf] at hpf
    rw [(hpf.symm).eq_nil]
  | cons b u =>
    rw [hf] at hpf hle
    have hu : u = [] := by
      rw [List.length_cons] at hle
      exact List.length_eq_zero.mp (Nat.le_zero.mp (Nat.le_of_succ_le_succ hle))
    subst hu
    rw [List.singleton_perm.mp hpf]

theorem keyBy_perm_jsGet {docs docs' : List JsValue} {f : String}
    (hp : docs.Perm docs')
    (h : (docs.map fun d => jsToPropKey (getFieldJs d f)).Nodup) (k : String) :
    jsGet (keyBy docs f) k = jsGet (keyBy docs' f) k := by
  rw [jsGet_keyBy, jsGet_keyBy, getLast?_filter_perm hp h k]

theorem nodup_map_of_sublist {α : Type} {g : α → String} {l l' : List α}
    (hs : l'.Sublist l) (h : (l.map g).Nodup) : (l'.map g).Nodup :=
  ((hs.map g).nodup h)

theorem getManyBy_perm {ctx : Ctx} {store₂ : List JsValue} (qk : String)
    (keys : List String) (hperm : ctx.store.Perm store₂)
    (hnodup : (ctx.store.map fun d => jsToPropKey (getFieldJs d qk)).Nodup) :
    getManyBy (Ctx.mk ctx.enable ctx.modelName ctx.additionalCacheKeys store₂) qk keys
      = getManyBy ctx qk keys := by
  have hdp : (modelFind ctx.store qk keys).Perm (modelFind store₂ qk keys) :=
    hperm.filter _
  have hdn : ((modelFind ctx.store qk keys).map
      fun d => jsToPropKey (getFieldJs d qk)).Nodup :=
    nodup_map_of_sublist (List.filter_sublist _) hnodup
  have hjs : ∀ k, jsGet (keyBy (modelFind store₂ qk keys) qk) k
      = jsGet (keyBy (modelFind ctx.store qk keys) qk) k :=
    fun k => (keyBy_perm_jsGet hdp hdn k).symm
  unfold getManyBy
  show (_, _) = (_, _)
  have h1 : (keys.map fun key =>
        jsOrNull (jsGet (keyBy (modelFind store₂ qk keys) qk) key))
      = keys.map fun key =>
        jsOrNull (jsGet (keyBy (modelFind ctx.store qk keys) qk) key) :=
    List.map_congr_left fun key _ => by rw [hjs key]
  have h2 : (keys.filter fun key =>
        !truthy (jsGet (keyBy (modelFind store₂ qk keys) qk) key))
      = keys.filter fun key =>
        !truthy (jsGet (keyBy (modelFind ctx.store qk keys) qk) key) :=
    List.filter_congr fun key _ => by rw [hjs key]
  rw [h1, h2]

theorem storedKeyValueOf_store_congr {ctx : Ctx} {store₂ : List JsValue} (ck : String)
    (m : List String)
    (hgm : getManyBy (Ctx.mk ctx.enable ctx.modelName ctx.additionalCacheKeys store₂) ck m
      = getManyBy ctx ck m) :
    storedKeyValueOf (Ctx.mk ctx.enable ctx.modelName ctx.additionalCacheKeys store₂) ck m
      = storedKeyValueOf ctx ck m := by
  unfold storedKeyValueOf storedDataEntriesOf
  rw [hgm]
  rfl

theorem runOutOf_store_congr {ctx : Ctx} {store₂ : List JsValue} (cache : Cache)
    (ck : String) (keys : List String) (kv : JsMap)
    (hgm : ∀ m, getManyBy (Ctx.mk ctx.enable ctx.modelName ctx.additionalCacheKeys store₂) ck m
      = getManyBy ctx ck m) :
    runOutOf (Ctx.mk ctx.enable ctx.modelName ctx.additionalCacheKeys store₂) cache ck keys kv
      = runOutOf ctx cache ck keys kv := by
  unfold runOutOf
  rw [storedKeyValueOf_store_congr ck (missedOf keys kv) (hgm _), hgm (missedOf keys kv)]
  rfl

theorem cacheGetManyBy_store_congr {ctx : Ctx} {store₂ : List JsValue} (cache : Cache)
    (ck : String) (keys : List String)
    (hgm : ∀ m, getManyBy (Ctx.mk ctx.enable ctx.modelName ctx.additionalCacheKeys store₂) ck m
      = getManyBy ctx ck m) :
    cacheGetManyBy (Ctx.mk ctx.enable ctx.modelName ctx.additionalCacheKeys store₂) cache ck keys
      = cacheGetManyBy ctx cache ck keys := by
  by_cases hen : ctx.enable = true
  · have hen2 : (Ctx.mk ctx.enable ctx.modelName ctx.additionalCacheKeys store₂).enable = true :=
      hen
    rw [cacheGetManyBy_enabled hen2 cache ck keys, cacheGetManyBy_enabled hen cache ck keys]
    have hrun : runOutOf (Ctx.mk ctx.enable ctx.modelName ctx.additionalCacheKeys store₂)
        cache ck keys = runOutOf ctx cache ck keys :=
      funext fun kv => runOutOf_store_congr cache ck keys kv hgm
    rw [hrun]
    rfl
  · have hdis : ctx.enable = false := by
      revert hen
      cases ctx.enable <;> simp
    have hdis2 : (Ctx.mk ctx.enable ctx.modelName ctx.additionalCacheKeys store₂).enable = false :=
      hdis
    rw [cacheGetManyBy_disabled hdis2 cache ck keys, cacheGetManyBy_disabled hdis cache ck keys,
      hgm keys]

theorem cacheSetMany_enabled {ctx : Ctx} (hen : ctx.enable = true) (m : JsMap) :
    cacheSetMany ctx m
      = if (setBatchOf ctx m).isEmpty then [] else [CacheOp.setBatch (setBatchOf ctx m)] := by
  unfold cacheSetMany
  rw [hen]
  rfl

/-! ## Claims -/

/-- C6: when the enabled flag is false, `cacheGetManyBy` is extensionally
equal to a direct `getManyBy`: same response, untouched cache, no Redis
round trips at all (hence no cache-miss events), while the resolver's
data-miss events fire exactly as in a direct resolve (the event list is
the resolver's own, which contains no cache-miss event). -/
theorem spec_c6 (ctx : Ctx) (cache : Cache) (ck : String) (keys : List String)
    (hdis : ctx.enable = false) :
    cacheGetManyBy ctx cache ck keys
      = .ok ⟨(getManyBy ctx ck keys).1, cache, [], (getManyBy ctx ck keys).2⟩
    ∧ ∀ n k, Event.cacheMiss n k ∉ (getManyBy ctx ck keys).2 := by
  refine ⟨cacheGetManyBy_disabled hdis cache ck keys, ?_⟩
  intro n k hmem
  rw [getManyBy_snd] at hmem
  obtain ⟨k', _, heq⟩ := List.mem_map.mp hmem
  cases heq

/-- Witness for C6 at the `Entry` scenario with caching disabled. -/
theorem spec_c6_witness :
    ctxDisabled.enable = false
    ∧ (cacheGetManyBy ctxDisabled emptyCache "_id" ["id1", "id3"]
        = .ok ⟨(getManyBy ctxDisabled "_id" ["id1", "id3"]).1, emptyCache, [],
               (getManyBy ctxDisabled "_id" ["id1", "id3"]).2⟩
      ∧ ∀ n k, Event.cacheMiss n k ∉ (getManyBy ctxDisabled "_id" ["id1", "id3"]).2) :=
  ⟨rfl, spec_c6 ctxDisabled emptyCache "_id" ["id1", "id3"] rfl⟩

/-- C7: `cacheSetMany` stages a serialized write only for truthy-valued
entries (null-valued entries are dropped, no tombstone), issues the
surviving entries as one batched write, returns with no Redis call at
all when the filtered batch is empty, and is a complete no-op when the
enabled flag is false. -/
theorem spec_c7 (ctx : Ctx) (entries : JsMap) (hen : ctx.enable = true) :
    (setBatchOf ctx entries = [] → cacheSetMany ctx entries = [])
    ∧ (setBatchOf ctx entries ≠ [] →
        cacheSetMany ctx entries = [CacheOp.setBatch (setBatchOf ctx entries)])
    ∧ (∀ p, p ∈ setBatchOf ctx entries
        ↔ ∃ e ∈ entries, truthy e.2 = true
            ∧ p = (withCachePrefix ctx e.1, CachedString.ser e.2))
    ∧ cacheSetMany (Ctx.mk false ctx.modelName ctx.additionalCacheKeys ctx.store) entries
        = [] := by
  refine ⟨?_, ?_, ?_, rfl⟩
  · intro hb
    rw [cacheSetMany_enabled hen, hb]
    rfl
  · intro hb
    rw [cacheSetMany_enabled hen,
      if_neg fun hc => hb (List.isEmpty_iff.mp hc)]
  · intro p
    constructor
    · intro hp
      obtain ⟨e, he, rfl⟩ := List.mem_map.mp hp
      rw [List.mem_filter] at he
      exact ⟨e, he.1, he.2, rfl⟩
    · rintro ⟨e, he, ht, rfl⟩
      exact List.mem_map.mpr ⟨e, List.mem_filter.mpr ⟨he, ht⟩, rfl⟩

/-- Witness for C7 at the spec's literal `setMany` scenario
(`id1` kept, null-valued `id2` dropped). -/
theorem spec_c7_witness :
    ctxEntry.enable = true
    ∧ ((setBatchOf ctxEntry entriesRush = [] → cacheSetMany ctxEntry entriesRush = [])
      ∧ (setBatchOf ctxEntry entriesRush ≠ [] →
          cacheSetMany ctxEntry entriesRush = [CacheOp.setBatch (setBatchOf ctxEntry entriesRush)])
      ∧ (∀ p, p ∈ setBatchOf ctxEntry entriesRush
          ↔ ∃ e ∈ entriesRush, truthy e.2 = true
              ∧ p = (withCachePrefix ctxEntry e.1, CachedString.ser e.2))
      ∧ cacheSetMany (Ctx.mk false ctxEntry.modelName ctxEntry.additionalCacheKeys ctxEntry.store)
          entriesRush = []) :=
  ⟨rfl, spec_c7 ctxEntry entriesRush rfl⟩

/-- The spec's literal `setMany` scenario, evaluated: one batched write
containing only the serialized `id1` entry. -/
theorem spec_c7_scenario :
    cacheSetMany ctxEntry entriesRush
      = [CacheOp.setBatch [("entry:id1", .ser (.vObj [("title", .vStr "Rush")]))]] := rfl

/-- C8: `clearMany` issues exactly one batched delete holding the
prefixed form of every input key, independent of the enabled flag; after
it, every input key's slot is absent and every other slot is untouched
(deleting an absent key is not an error — the operation is total). -/
theorem spec_c8 (ctx : Ctx) (cache : Cache) (keys : List String) :
    cacheClearMany ctx keys = [CacheOp.delBatch (keys.map (withCachePrefix ctx))]
    ∧ (∀ b : Bool, cacheClearMany (Ctx.mk b ctx.modelName ctx.additionalCacheKeys ctx.store) keys
        = cacheClearMany ctx keys)
    ∧ (∀ k ∈ keys, applyOps cache (cacheClearMany ctx keys) (withCachePrefix ctx k) = none)
    ∧ (∀ q, (∀ k ∈ keys, q ≠ withCachePrefix ctx k) →
        applyOps cache (cacheClearMany ctx keys) q = cache q) := by
  have happ : ∀ q, applyOps cache (cacheClearMany ctx keys) q
      = (keys.map (withCachePrefix ctx)).foldl
          (fun c dk => fun r => if r = dk then none else c r) cache q :=
    fun q => rfl
  refine ⟨rfl, fun b => rfl, ?_, ?_⟩
  · intro k hk
    rw [happ, applyDelFold, if_pos (List.mem_map.mpr ⟨k, hk, rfl⟩)]
  · intro q hq
    rw [happ, applyDelFold]
    rw [if_neg fun hc => ?_]
    obtain ⟨k, hk, heq⟩ := List.mem_map.mp hc
    exact hq k hk heq.symm

/-- Witness for C8 at the spec's literal `clearMany(["id1","id3","id5"])`
scenario. -/
theorem spec_c8_witness :
    cacheClearMany ctxEntry ["id1", "id3", "id5"]
      = [CacheOp.delBatch (["id1", "id3", "id5"].map (withCachePrefix ctxEntry))]
    ∧ (∀ b : Bool,
        cacheClearMany (Ctx.mk b ctxEntry.modelName ctxEntry.additionalCacheKeys ctxEntry.store)
          ["id1", "id3", "id5"] = cacheClearMany ctxEntry ["id1", "id3", "id5"])
    ∧ (∀ k ∈ ["id1", "id3", "id5"],
        applyOps emptyCache (cacheClearMany ctxEntry ["id1", "id3", "id5"])
          (withCachePrefix ctxEntry k) = none)
    ∧ (∀ q, (∀ k ∈ ["id1", "id3", "id5"], q ≠ withCachePrefix ctxEntry k) →
        applyOps emptyCache (cacheClearMany ctxEntry ["id1", "id3", "id5"]) q
          = emptyCache q) :=
  spec_c8 ctxEntry emptyCache ["id1", "id3", "id5"]

/-- C9: a malformed (non-JSON) cached string under a requested key makes
the whole `cacheGetManyBy` call throw out of `JSON.parse`: the result is
the propagated parse failure — no cache-miss event is emitted, the store
is never consulted, and no write or delete touches the bad entry (the
error carries no response, no cache change, no ops and no events). -/
theorem spec_c9 (ctx : Ctx) (cache : Cache) (ck : String) (keys : List String)
    (k : String) (t : Nat) (hen : ctx.enable = true) (hk : k ∈ keys)
    (hm : cache (withCachePrefix ctx k) = some (.malformed t)) :
    cacheGetManyBy ctx cache ck keys = .error () := by
  rw [cacheGetManyBy_enabled hen cache ck keys, buildCachedKeyValue_error hk hm]
  rfl

/-- Witness for C9: a malformed payload under `entry:id1`. -/
theorem spec_c9_witness :
    ctxEntry.enable = true
    ∧ "id1" ∈ ["id1", "id3"]
    ∧ cacheMalformed (withCachePrefix ctxEntry "id1") = some (.malformed 0)
    ∧ cacheGetManyBy ctxEntry cacheMalformed "_id" ["id1", "id3"] = .error () :=
  ⟨rfl, by simp, rfl,
    spec_c9 ctxEntry cacheMalformed "_id" ["id1", "id3"] "id1" 0 rfl (by simp) rfl⟩

/-- C10: a cached string that is present but parses to a falsy JSON
value (`false`, `0`, `""`, `null`), or is the empty string, is treated
as a cache miss: the key lands in `missedKeysFromCache` (the list handed
to the resolver's store query), a cache-miss event fires for it, and the
call completes normally. -/
theorem spec_c10 (ctx : Ctx) (cache : Cache) (ck : String) (keys : List String)
    (k : String) (kv : JsMap) (hen : ctx.enable = true)
    (hkv : buildCachedKeyValue (cachedPairsOf ctx cache keys) = .ok kv)
    (hk : k ∈ keys)
    (hfalsy : cache (withCachePrefix ctx k) = some CachedString.empty
      ∨ ∃ v, cache (withCachePrefix ctx k) = some (CachedString.ser v) ∧ truthy v = false) :
    k ∈ missedOf keys kv
    ∧ Event.cacheMiss ctx.modelName k ∈ (runOutOf ctx cache ck keys kv).events
    ∧ cacheGetManyBy ctx cache ck keys = .ok (runOutOf ctx cache ck keys kv) := by
  have hmiss : k ∈ missedOf keys kv := by
    unfold missedOf
    apply List.mem_filter.mpr
    refine ⟨hk, ?_⟩
    have hchar := buildCachedKeyValue_get hkv k
    rw [if_pos hk] at hchar
    rcases hfalsy with he | ⟨v, hv, hfv⟩
    · rw [he] at hchar
      simp only [hitOf, Option.getD_none] at hchar
      rw [hchar]
      rfl
    · rw [hv] at hchar
      simp only [hitOf, Option.getD_some] at hchar
      rw [hchar, hfv]
      rfl
  refine ⟨hmiss, ?_, cacheGetManyBy_run hen hkv⟩
  rw [runOutOf_events]
  have hpos : (missedOf keys kv).length > 0 :=
    List.length_pos.mpr (List.ne_nil_of_mem hmiss)
  rw [if_pos hpos]
  exact List.mem_append.mpr (Or.inl (List.mem_map.mpr ⟨k, hmiss, rfl⟩))

/-- Witness for C10: the cache holds the serialization of `0` under
`entry:id3`; the call misses, queries the store and still resolves. -/
theorem spec_c10_witness :
    ctxEntry.enable = true
    ∧ buildCachedKeyValue (cachedPairsOf ctxEntry cacheFalsy ["id3"]) = .ok [("id3", .vNum 0)]
    ∧ "id3" ∈ ["id3"]
    ∧ (cacheFalsy (withCachePrefix ctxEntry "id3") = some CachedString.empty
        ∨ ∃ v, cacheFalsy (withCachePrefix ctxEntry "id3") = some (CachedString.ser v)
            ∧ truthy v = false)
    ∧ ("id3" ∈ missedOf ["id3"] [("id3", .vNum 0)]
      ∧ Event.cacheMiss ctxEntry.modelName "id3"
          ∈ (runOutOf ctxEntry cacheFalsy "_id" ["id3"] [("id3", .vNum 0)]).events
      ∧ cacheGetManyBy ctxEntry cacheFalsy "_id" ["id3"]
          = .ok (runOutOf ctxEntry cacheFalsy "_id" ["id3"] [("id3", .vNum 0)])) :=
  ⟨rfl, rfl, by simp, Or.inr ⟨.vNum 0, rfl, rfl⟩,
    spec_c10 ctxEntry cacheFalsy "_id" ["id3"] "id3" [("id3", .vNum 0)] rfl rfl (by simp)
      (Or.inr ⟨.vNum 0, rfl, rfl⟩)⟩

/-- C2, counterexample to the claim as stated: with additional cache key
`slug`, the keys `["id1","id3"]`, a cache hit for `id1` (truthy parsed
value `{title:"Cached"}`), and the store resolving `id3` to a record
whose `slug` equals `id1`, the response for the cache-hit key `id1` is
the record resolved from the store during the same call — not the
cache-hit value — because the merge `{...cachedKeyValue,
...storedKeyValue}` gives the stored map precedence. -/
theorem spec_c2_counterexample :
    buildCachedKeyValue (cachedPairsOf ctxCollide cacheHitId1 ["id1", "id3"])
      = .ok [("id1", cachedRec)]
    ∧ truthy (jsGet [("id1", cachedRec)] "id1") = true
    ∧ (cacheGetManyBy ctxCollide cacheHitId1 "_id" ["id1", "id3"]).map RunOut.response
        = .ok [docSlugId1, docSlugId1]
    ∧ docSlugId1 ≠ cachedRec := by
  refine ⟨rfl, rfl, rfl, fun h => ?_⟩
  have ht : JsValue.vStr "Stored" = JsValue.vStr "Cached" := by
    calc JsValue.vStr "Stored" = getFieldJs docSlugId1 "title" := rfl
      _ = getFieldJs cachedRec "title" := by rw [h]
      _ = JsValue.vStr "Cached" := rfl
  exact absurd (JsValue.vStr.inj ht) (by decide)

/-- C2, amended: `cacheGetManyBy`'s response for each original key is the
store-derived value whenever the key occurs (truthily) in the
`storedKeyValue` map built from the resolved records — the stored map
takes precedence over a cache hit when a resolved record's `cacheKey` or
additional-key field value collides with it — otherwise the cache-hit
value if truthy, otherwise null. -/
theorem spec_c2 (ctx : Ctx) (cache : Cache) (ck : String) (keys : List String)
    (kv : JsMap) (hen : ctx.enable = true)
    (hkv : buildCachedKeyValue (cachedPairsOf ctx cache keys) = .ok kv) :
    cacheGetManyBy ctx cache ck keys = .ok (runOutOf ctx cache ck keys kv)
    ∧ (runOutOf ctx cache ck keys kv).response
      = keys.map fun k =>
          jsOrNull (if truthy (jsGet (storedKeyValueOf ctx ck (missedOf keys kv)) k) = true
            then jsGet (storedKeyValueOf ctx ck (missedOf keys kv)) k
            else jsGet kv k) := by
  refine ⟨cacheGetManyBy_run hen hkv, ?_⟩
  rw [runOutOf_response]
  exact List.map_congr_left fun k _ => by rw [jsGet_merge_stored]

/-- Witness for C2 (amended) at the `Entry` scenario on a cold cache. -/
theorem spec_c2_witness :
    ctxEntry.enable = true
    ∧ buildCachedKeyValue (cachedPairsOf ctxEntry emptyCache ["id3"]) = .ok []
    ∧ (cacheGetManyBy ctxEntry emptyCache "_id" ["id3"]
        = .ok (runOutOf ctxEntry emptyCache "_id" ["id3"] [])
      ∧ (runOutOf ctxEntry emptyCache "_id" ["id3"] []).response
        = ["id3"].map fun k =>
            jsOrNull (if truthy (jsGet (storedKeyValueOf ctxEntry "_id" (missedOf ["id3"] [])) k) = true
              then jsGet (storedKeyValueOf ctxEntry "_id" (missedOf ["id3"] [])) k
              else jsGet [] k)) :=
  ⟨rfl, rfl, spec_c2 ctxEntry emptyCache "_id" ["id3"] [] rfl rfl⟩

/-- C3, the code evaluated at the failing input: the store's record for
`id3` has no `slug` field, yet with `additionalCacheKeys = ["slug"]` the
fill stages a second write under the string-coerced key `"undefined"` —
one batched write `[set entry:id3, set entry:undefined]` — instead of
skipping the absent alias. -/
theorem spec_c3 :
    (cacheGetManyBy ctxNoSlug emptyCache "_id" ["id3"]).map RunOut.ops
      = .ok [CacheOp.getBatch ["entry:id3"],
             CacheOp.setBatch [("entry:id3", .ser docNoSlug),
                               ("entry:undefined", .ser docNoSlug)]]
    ∧ getFieldJs docNoSlug "slug" = .vUndefined := ⟨rfl, rfl⟩

/-- C4: whenever `cacheGetManyBy` completes, its op trace contains at
most one batched cache write; if anything was staged, the fill batch is
issued as that single batched write; and every key `k` that
`storedKeyValue` maps to a record `v` (the record's primary slot and
each of its alias slots, absent cross-record collisions) is staged in
that one batch with the serialized payload `ser v` and afterwards reads
back exactly `ser v` — so all slots mapped to the same record hold
byte-identical serialized payloads. -/
theorem spec_c4 (ctx : Ctx) (cache : Cache) (ck : String) (keys : List String)
    (kv : JsMap) (hen : ctx.enable = true)
    (hkv : buildCachedKeyValue (cachedPairsOf ctx cache keys) = .ok kv) :
    cacheGetManyBy ctx cache ck keys = .ok (runOutOf ctx cache ck keys kv)
    ∧ ((runOutOf ctx cache ck keys kv).ops.filter isSetBatch).length ≤ 1
    ∧ (setBatchOf ctx (storedKeyValueOf ctx ck (missedOf keys kv)) ≠ [] →
        CacheOp.setBatch (setBatchOf ctx (storedKeyValueOf ctx ck (missedOf keys kv)))
          ∈ (runOutOf ctx cache ck keys kv).ops)
    ∧ (∀ k v, lookupKV (storedKeyValueOf ctx ck (missedOf keys kv)) k = some v →
        (withCachePrefix ctx k, CachedString.ser v)
          ∈ setBatchOf ctx (storedKeyValueOf ctx ck (missedOf keys kv))
        ∧ (runOutOf ctx cache ck keys kv).cache (withCachePrefix ctx k)
            = some (CachedString.ser v)) := by
  refine ⟨cacheGetManyBy_run hen hkv, ?_, ?_, ?_⟩
  · rw [runOutOf_ops]
    by_cases hm : (missedOf keys kv).length > 0
    · rw [if_pos hm, cacheSetMany_enabled hen]
      by_cases hb : (setBatchOf ctx (storedKeyValueOf ctx ck (missedOf keys kv))).isEmpty
      · rw [if_pos hb]
        simp [isSetBatch]
      · rw [if_neg hb]
        simp [isSetBatch]
    · rw [if_neg hm]
      simp [isSetBatch]
  · intro hne
    have hmpos : (missedOf keys kv).length > 0 := by
      by_contra hm
      rw [missedOf_nil_of_not_pos hm, storedKeyValueOf_nil] at hne
      exact hne rfl
    rw [runOutOf_ops, if_pos hmpos, cacheSetMany_enabled hen,
      if_neg fun hb => hne (List.isEmpty_iff.mp hb)]
    exact List.mem_cons.mpr (Or.inr (List.mem_cons_self _ _))
  · intro k v hl
    refine ⟨?_, ?_⟩
    · rw [setBatchOf_eq_map (allTruthy_storedKeyValueOf ctx ck _)]
      exact List.mem_map.mpr ⟨(k, v), mem_of_lookupKV hl, rfl⟩
    · rw [runOutOf_cache_lookup hen cache ck keys kv k, hl]
      rfl

/-- Witness for C4 at the `Entry` scenario on a cold cache (both
`entry:id3` and `entry:slug3` staged in the single fill batch). -/
theorem spec_c4_witness :
    ctxEntry.enable = true
    ∧ buildCachedKeyValue (cachedPairsOf ctxEntry emptyCache ["id3"]) = .ok []
    ∧ (cacheGetManyBy ctxEntry emptyCache "_id" ["id3"]
        = .ok (runOutOf ctxEntry emptyCache "_id" ["id3"] [])
      ∧ ((runOutOf ctxEntry emptyCache "_id" ["id3"] []).ops.filter isSetBatch).length ≤ 1
      ∧ (setBatchOf ctxEntry (storedKeyValueOf ctxEntry "_id" (missedOf ["id3"] [])) ≠ [] →
          CacheOp.setBatch (setBatchOf ctxEntry (storedKeyValueOf ctxEntry "_id" (missedOf ["id3"] [])))
            ∈ (runOutOf ctxEntry emptyCache "_id" ["id3"] []).ops)
      ∧ (∀ k v, lookupKV (storedKeyValueOf ctxEntry "_id" (missedOf ["id3"] [])) k = some v →
          (withCachePrefix ctxEntry k, CachedString.ser v)
            ∈ setBatchOf ctxEntry (storedKeyValueOf ctxEntry "_id" (missedOf ["id3"] []))
          ∧ (runOutOf ctxEntry emptyCache "_id" ["id3"] []).cache (withCachePrefix ctxEntry k)
              = some (CachedString.ser v))) :=
  ⟨rfl, rfl, spec_c4 ctxEntry emptyCache "_id" ["id3"] [] rfl rfl⟩

/-- C1: a completed `cacheGetManyBy` (and, through its disabled branch,
`getManyBy`) returns a response of the same length as the input key
list, with the i-th result a function of the i-th key alone (so
duplicate keys map to identical results, stated via `get?`), and —
because the cache's batched GET answers in request order and, for a
store whose `cacheKey` field values are unique, `keyBy` is insensitive
to the order the store returns its records — the same response for any
permutation of the backing store. -/
theorem spec_c1 (ctx : Ctx) (store₂ : List JsValue) (cache : Cache) (ck : String)
    (keys : List String) (res : List JsValue)
    (hok : (cacheGetManyBy ctx cache ck keys).map RunOut.response = .ok res)
    (hperm : ctx.store.Perm store₂)
    (hnodup : (ctx.store.map fun d => jsToPropKey (getFieldJs d ck)).Nodup) :
    res.length = keys.length
    ∧ (∃ f : String → JsValue, res = keys.map f)
    ∧ (∀ i j : Nat, keys.get? i = keys.get? j → res.get? i = res.get? j)
    ∧ (cacheGetManyBy (Ctx.mk ctx.enable ctx.modelName ctx.additionalCacheKeys store₂)
        cache ck keys).map RunOut.response = .ok res
    ∧ (∃ g : String → JsValue, (getManyBy ctx ck keys).1 = keys.map g)
    ∧ getManyBy (Ctx.mk ctx.enable ctx.modelName ctx.additionalCacheKeys store₂) ck keys
        = getManyBy ctx ck keys := by
  have hfac : ∃ f : String → JsValue, res = keys.map f := by
    by_cases hen : ctx.enable = true
    · rw [cacheGetManyBy_enabled hen cache ck keys] at hok
      obtain ⟨o, ho, hres⟩ := except_ok_of_map hok
      obtain ⟨kv, hk2, hrun⟩ := except_ok_of_map ho
      refine ⟨fun key => jsOrNull
        (jsGet (jsMerge kv (storedKeyValueOf ctx ck (missedOf keys kv))) key), ?_⟩
      rw [← hres, ← hrun, runOutOf_response]
    · have hdis : ctx.enable = false := by
        revert hen
        cases ctx.enable <;> simp
      rw [cacheGetManyBy_disabled hdis cache ck keys] at hok
      obtain ⟨o, ho, hres⟩ := except_ok_of_map hok
      cases ho
      refine ⟨fun key =>
        jsOrNull (jsGet (keyBy (modelFind ctx.store ck keys) ck) key), ?_⟩
      rw [← hres]
      rfl
  obtain ⟨f, hf⟩ := hfac
  have hgm : ∀ m, getManyBy (Ctx.mk ctx.enable ctx.modelName ctx.additionalCacheKeys store₂)
      ck m = getManyBy ctx ck m :=
    fun m => getManyBy_perm ck m hperm hnodup
  refine ⟨by rw [hf, List.length_map], ⟨f, hf⟩, ?_, ?_,
    ⟨fun key => jsOrNull (jsGet (keyBy (modelFind ctx.store ck keys) ck) key),
      getManyBy_fst ctx ck keys⟩, hgm keys⟩
  · intro i j hij
    rw [hf, List.get?_eq_getElem?, List.get?_eq_getElem?, List.getElem?_map,
      List.getElem?_map]
    rw [List.get?_eq_getElem?, List.get?_eq_getElem?] at hij
    rw [hij]
  · rw [cacheGetManyBy_store_congr cache ck keys hgm]
    exact hok

/-- Witness for C1: duplicate keys `["a","a","b"]` against a two-record
store and its reversal. -/
theorem spec_c1_witness :
    (cacheGetManyBy ctxTwo emptyCache "_id" ["a", "a", "b"]).map RunOut.response
      = .ok [docA, docA, docB]
    ∧ ctxTwo.store.Perm [docB, docA]
    ∧ (ctxTwo.store.map fun d => jsToPropKey (getFieldJs d "_id")).Nodup
    ∧ ([docA, docA, docB].length = ["a", "a", "b"].length
      ∧ (∃ f : String → JsValue, [docA, docA, docB] = ["a", "a", "b"].map f)
      ∧ (∀ i j : Nat, ["a", "a", "b"].get? i = ["a", "a", "b"].get? j →
          [docA, docA, docB].get? i = [docA, docA, docB].get? j)
      ∧ (cacheGetManyBy (Ctx.mk ctxTwo.enable ctxTwo.modelName ctxTwo.additionalCacheKeys
            [docB, docA]) emptyCache "_id" ["a", "a", "b"]).map RunOut.response
          = .ok [docA, docA, docB]
      ∧ (∃ g : String → JsValue, (getManyBy ctxTwo "_id" ["a", "a", "b"]).1
          = ["a", "a", "b"].map g)
      ∧ getManyBy (Ctx.mk ctxTwo.enable ctxTwo.modelName ctxTwo.additionalCacheKeys
            [docB, docA]) "_id" ["a", "a", "b"]
          = getManyBy ctxTwo "_id" ["a", "a", "b"]) :=
  ⟨rfl, List.Perm.swap docB docA [], by decide,
    spec_c1 ctxTwo [docB, docA] emptyCache "_id" ["a", "a", "b"] [docA, docA, docB]
      rfl (List.Perm.swap docB docA []) (by decide)⟩

/-! ## Second-call (idempotence) lemmas for C5 -/

theorem second_no_malformed {ctx : Ctx} {cache : Cache} {ck : String}
    {keys : List String} {kv₁ : JsMap} (hen : ctx.enable = true)
    (hkv₁ : buildCachedKeyValue (cachedPairsOf ctx cache keys) = .ok kv₁) :
    ∀ k ∈ keys, ∀ t,
      (runOutOf ctx cache ck keys kv₁).cache (withCachePrefix ctx k)
        ≠ some (.malformed t) := by
  intro k hk t
  rw [runOutOf_cache_lookup hen cache ck keys kv₁ k]
  cases hl : lookupKV (storedKeyValueOf ctx ck (missedOf keys kv₁)) k with
  | some v => simp
  | none =>
    simp only [Option.map_none', Option.none_orElse]
    exact no_malformed_of_build_ok hkv₁ k hk t

theorem second_build_ok {ctx : Ctx} {cache : Cache} {ck : String}
    {keys : List String} {kv₁ : JsMap} (hen : ctx.enable = true)
    (hkv₁ : buildCachedKeyValue (cachedPairsOf ctx cache keys) = .ok kv₁) :
    ∃ kv₂, buildCachedKeyValue
      (cachedPairsOf ctx (runOutOf ctx cache ck keys kv₁).cache keys) = .ok kv₂ :=
  buildCachedKeyValue_ok (second_no_malformed hen hkv₁)

theorem second_kv_char {ctx : Ctx} {cache : Cache} {ck : String}
    {keys : List String} {kv₁ kv₂ : JsMap} (hen : ctx.enable = true)
    (hkv₁ : buildCachedKeyValue (cachedPairsOf ctx cache keys) = .ok kv₁)
    (hkv₂ : buildCachedKeyValue
      (cachedPairsOf ctx (runOutOf ctx cache ck keys kv₁).cache keys) = .ok kv₂)
    {k : String} (hk : k ∈ keys) :
    jsGet kv₂ k
      = match lookupKV (storedKeyValueOf ctx ck (missedOf keys kv₁)) k with
        | some v => v
        | none => jsGet kv₁ k := by
  have h2 := buildCachedKeyValue_get hkv₂ k
  rw [if_pos hk, runOutOf_cache_lookup hen cache ck keys kv₁ k] at h2
  cases hl : lookupKV (storedKeyValueOf ctx ck (missedOf keys kv₁)) k with
  | some v =>
    rw [hl] at h2
    simp only [Option.map_some', Option.some_orElse] at h2
    rw [h2]
    rfl
  | none =>
    rw [hl] at h2
    have h2' : jsGet kv₂ k = (hitOf (cache (withCachePrefix ctx k))).getD .vUndefined := h2
    have h1 := buildCachedKeyValue_get hkv₁ k
    rw [if_pos hk] at h1
    rw [h2', ← h1]

theorem second_missed {ctx : Ctx} {cache : Cache} {ck : String}
    {keys : List String} {kv₁ kv₂ : JsMap} (hen : ctx.enable = true)
    (hkv₁ : buildCachedKeyValue (cachedPairsOf ctx cache keys) = .ok kv₁)
    (hkv₂ : buildCachedKeyValue
      (cachedPairsOf ctx (runOutOf ctx cache ck keys kv₁).cache keys) = .ok kv₂) :
    missedOf keys kv₂
      = (missedOf keys kv₁).filter
          fun k => !truthy (jsGet (storedKeyValueOf ctx ck (missedOf keys kv₁)) k) := by
  show keys.filter _ = (keys.filter _).filter _
  rw [List.filter_filter]
  apply List.filter_congr
  intro k hk
  cases hl : lookupKV (storedKeyValueOf ctx ck (missedOf keys kv₁)) k with
  | some v =>
    have hkv2k : jsGet kv₂ k = v := by
      rw [second_kv_char hen hkv₁ hkv₂ hk, hl]
    have htv : truthy v = true :=
      allTruthy_lookupKV (allTruthy_storedKeyValueOf ctx ck _) hl
    have hts : jsGet (storedKeyValueOf ctx ck (missedOf keys kv₁)) k = v :=
      jsGet_of_lookupKV hl
    rw [hkv2k, hts, htv]
    simp
  | none =>
    have hkv2k : jsGet kv₂ k = jsGet kv₁ k := by
      rw [second_kv_char hen hkv₁ hkv₂ hk, hl]
    have hts : jsGet (storedKeyValueOf ctx ck (missedOf keys kv₁)) k = .vUndefined :=
      jsGet_of_lookupKV_none hl
    rw [hkv2k, hts]
    simp [truthy]

/-- After the first call's fill, every key still missing from the cache
resolves to nothing at the store: any store record matching it would
already have been resolved — and hence filled — by the first call. -/
theorem second_resolves_nothing {ctx : Ctx} {cache : Cache} {ck : String}
    {keys : List String} {kv₁ kv₂ : JsMap} (hen : ctx.enable = true)
    (hkv₁ : buildCachedKeyValue (cachedPairsOf ctx cache keys) = .ok kv₁)
    (hkv₂ : buildCachedKeyValue
      (cachedPairsOf ctx (runOutOf ctx cache ck keys kv₁).cache keys) = .ok kv₂) :
    ∀ κ ∈ missedOf keys kv₂,
      truthy (jsGet (keyBy (modelFind ctx.store ck (missedOf keys kv₂)) ck) κ) = false := by
  intro κ hκ
  cases htr : truthy (jsGet (keyBy (modelFind ctx.store ck (missedOf keys kv₂)) ck) κ) with
  | false => rfl
  | true =>
    exfalso
    obtain ⟨W, hWdocs2, hWkey, -⟩ := jsGet_keyBy_elim htr
    have hmem := hκ
    rw [second_missed hen hkv₁ hkv₂] at hmem
    have hκm₁ : κ ∈ missedOf keys kv₁ := (List.mem_filter.mp hmem).1
    have hκfill := (List.mem_filter.mp hmem).2
    obtain ⟨hWstore, hWany2⟩ := mem_modelFind.mp hWdocs2
    have hsub : missedOf keys kv₂ ⊆ missedOf keys kv₁ := by
      rw [second_missed hen hkv₁ hkv₂]
      exact fun x hx => (List.mem_filter.mp hx).1
    have hWany1 : ((missedOf keys kv₁).any
        fun k => fieldMatches (getFieldJs W (keyLookupOf ck)) k) = true := by
      obtain ⟨k0, hk0, hf0⟩ := List.any_eq_true.mp hWany2
      exact List.any_eq_true.mpr ⟨k0, hsub hk0, hf0⟩
    have hWdocs1 : W ∈ modelFind ctx.store ck (missedOf keys kv₁) :=
      mem_modelFind.mpr ⟨hWstore, hWany1⟩
    obtain ⟨w1, hw1docs, hw1key, hw1get⟩ := jsGet_keyBy_intro hWdocs1 hWkey
    have hw1tr : truthy w1 = true := truthy_of_mem_modelFind hw1docs
    have hw1sd : w1 ∈ ((getManyBy ctx ck (missedOf keys kv₁)).1.filter truthy) := by
      apply List.mem_filter.mpr
      refine ⟨?_, hw1tr⟩
      rw [getManyBy_fst]
      refine List.mem_map.mpr ⟨κ, hκm₁, ?_⟩
      rw [hw1get]
      unfold jsOrNull
      rw [if_pos hw1tr]
    obtain ⟨w2, hw2mem, hw2key, hw2get⟩ := jsGet_keyBy_intro hw1sd hw1key
    have hw2tr : truthy w2 = true := (List.mem_filter.mp hw2mem).2
    have hget2 : jsGet (storedDataEntriesOf ctx ck (missedOf keys kv₁)) κ = w2 := hw2get
    have hlook : lookupKV (storedDataEntriesOf ctx ck (missedOf keys kv₁)) κ = some w2 := by
      cases hl : lookupKV (storedDataEntriesOf ctx ck (missedOf keys kv₁)) κ with
      | none =>
        rw [jsGet_of_lookupKV_none hl] at hget2
        rw [← hget2] at hw2tr
        simp [truthy] at hw2tr
      | some u =>
        rw [jsGet_of_lookupKV hl] at hget2
        rw [hget2]
    have hfilled := storedKeyValueOf_filled (mem_of_lookupKV hlook) hw2tr
    rw [hfilled] at hκfill
    simp at hκfill

/-- The second call's `storedKeyValue` is empty: nothing resolves. -/
theorem second_stored_nil {ctx : Ctx} {cache : Cache} {ck : String}
    {keys : List String} {kv₁ kv₂ : JsMap} (hen : ctx.enable = true)
    (hkv₁ : buildCachedKeyValue (cachedPairsOf ctx cache keys) = .ok kv₁)
    (hkv₂ : buildCachedKeyValue
      (cachedPairsOf ctx (runOutOf ctx cache ck keys kv₁).cache keys) = .ok kv₂) :
    storedKeyValueOf ctx ck (missedOf keys kv₂) = [] := by
  have hfe : ((getManyBy ctx ck (missedOf keys kv₂)).1.filter truthy) = [] := by
    rw [getManyBy_fst, List.filter_eq_nil_iff]
    intro x hx
    obtain ⟨κ, hκ, hxe⟩ := List.mem_map.mp hx
    have hfalse := second_resolves_nothing hen hkv₁ hkv₂ κ hκ
    rw [← hxe]
    unfold jsOrNull
    rw [hfalse]
    simp [truthy]
  show (storedDataEntriesOf ctx ck (missedOf keys kv₂)).foldl (storedFillStep ctx) [] = []
  unfold storedDataEntriesOf
  rw [hfe]
  rfl

/-- C5: with caching enabled and no intervening writes, running
`cacheGetManyBy` twice with the same field and key list succeeds both
times, the second response equals the first, and the second call emits
no data-miss event for any key the first call filled into the cache
(the truthy domain of the first call's `storedKeyValue`). -/
theorem spec_c5 (ctx : Ctx) (cache : Cache) (ck : String) (keys : List String)
    (kv₁ : JsMap) (hen : ctx.enable = true)
    (hkv₁ : buildCachedKeyValue (cachedPairsOf ctx cache keys) = .ok kv₁) :
    cacheGetManyBy ctx cache ck keys = .ok (runOutOf ctx cache ck keys kv₁)
    ∧ ∃ kv₂,
        buildCachedKeyValue
          (cachedPairsOf ctx (runOutOf ctx cache ck keys kv₁).cache keys) = .ok kv₂
        ∧ cacheGetManyBy ctx (runOutOf ctx cache ck keys kv₁).cache ck keys
            = .ok (runOutOf ctx (runOutOf ctx cache ck keys kv₁).cache ck keys kv₂)
        ∧ (runOutOf ctx (runOutOf ctx cache ck keys kv₁).cache ck keys kv₂).response
            = (runOutOf ctx cache ck keys kv₁).response
        ∧ ∀ k, truthy (jsGet (storedKeyValueOf ctx ck (missedOf keys kv₁)) k) = true →
            Event.dataMiss ctx.modelName k
              ∉ (runOutOf ctx (runOutOf ctx cache ck keys kv₁).cache ck keys kv₂).events := by
  refine ⟨cacheGetManyBy_run hen hkv₁, ?_⟩
  obtain ⟨kv₂, hkv₂⟩ := second_build_ok hen hkv₁
  refine ⟨kv₂, hkv₂, cacheGetManyBy_run hen hkv₂, ?_, ?_⟩
  · rw [runOutOf_response, runOutOf_response, second_stored_nil hen hkv₁ hkv₂, jsMerge_nil]
    apply List.map_congr_left
    intro k hk
    rw [jsGet_merge_stored]
    cases hl : lookupKV (storedKeyValueOf ctx ck (missedOf keys kv₁)) k with
    | some v =>
      have hkv2k : jsGet kv₂ k = v := by
        rw [second_kv_char hen hkv₁ hkv₂ hk, hl]
      have htv : truthy v = true :=
        allTruthy_lookupKV (allTruthy_storedKeyValueOf ctx ck _) hl
      rw [hkv2k, jsGet_of_lookupKV hl, if_pos htv]
    | none =>
      have hkv2k : jsGet kv₂ k = jsGet kv₁ k := by
        rw [second_kv_char hen hkv₁ hkv₂ hk, hl]
      rw [hkv2k, jsGet_of_lookupKV_none hl, if_neg (by simp [truthy])]
  · intro k hfill hmem
    rw [runOutOf_events] at hmem
    by_cases hp : (missedOf keys kv₂).length > 0
    · rw [if_pos hp] at hmem
      rcases List.mem_append.mp hmem with hcm | hdm
      · obtain ⟨k', -, heq⟩ := List.mem_map.mp hcm
        cases heq
      · rw [getManyBy_snd] at hdm
        obtain ⟨k', hk', heq⟩ := List.mem_map.mp hdm
        injection heq with hn hkk
        have hk'm2 : k' ∈ missedOf keys kv₂ := (List.mem_filter.mp hk').1
        rw [second_missed hen hkv₁ hkv₂] at hk'm2
        have hnofill := (List.mem_filter.mp hk'm2).2
        rw [hkk, hfill] at hnofill
        simp at hnofill
    · rw [if_neg hp] at hmem
      cases hmem

/-- Witness for C5 at the `Entry` scenario on a cold cache: the first
call fills `entry:id3` and `entry:slug3`, the second call hits. -/
theorem spec_c5_witness :
    ctxEntry.enable = true
    ∧ buildCachedKeyValue (cachedPairsOf ctxEntry emptyCache ["id3"]) = .ok []
    ∧ (cacheGetManyBy ctxEntry emptyCache "_id" ["id3"]
        = .ok (runOutOf ctxEntry emptyCache "_id" ["id3"] [])
      ∧ ∃ kv₂,
          buildCachedKeyValue
            (cachedPairsOf ctxEntry (runOutOf ctxEntry emptyCache "_id" ["id3"] []).cache ["id3"])
            = .ok kv₂
          ∧ cacheGetManyBy ctxEntry (runOutOf ctxEntry emptyCache "_id" ["id3"] []).cache
              "_id" ["id3"]
              = .ok (runOutOf ctxEntry (runOutOf ctxEntry emptyCache "_id" ["id3"] []).cache
                  "_id" ["id3"] kv₂)
          ∧ (runOutOf ctxEntry (runOutOf ctxEntry emptyCache "_id" ["id3"] []).cache
              "_id" ["id3"] kv₂).response
              = (runOutOf ctxEntry emptyCache "_id" ["id3"] []).response
          ∧ ∀ k, truthy (jsGet (storedKeyValueOf ctxEntry "_id" (missedOf ["id3"] [])) k) = true →
              Event.dataMiss ctxEntry.modelName k
                ∉ (runOutOf ctxEntry (runOutOf ctxEntry emptyCache "_id" ["id3"] []).cache
                    "_id" ["id3"] kv₂).events) :=
  ⟨rfl, rfl, spec_c5 ctxEntry emptyCache "_id" ["id3"] [] rfl rfl⟩
